import Mathlib

/-!
Verification of the classical arithmetic and GF(2) linear-algebra support code
of the qsfe repository (Shor's and Simon's algorithm classical post-processing).

Python sources embedded here:
* `Forest/ForestNonOracles/shor_math.py` — `sign`, `gcd_recursion`,
  `extended_gcd`, `get_modulus_residue`, `inverse_mod`
* `Cirq/CirqNonOracles/shor.py` — `find_continued_fraction_convergent`,
  `find_period_of_modular_exponentiation`
* `Forest/ForestNonOracles/shor_tests.py` — `run_shor`
* `Forest/ForestOracles/Simon/matrix_math.py` — `find_pivot_row`, `swap_rows`,
  `reduce_rows`, `convert_to_reduced_row_echelon_form`,
  `check_linear_independence`, `complete_matrix`, `solve_matrix`
* `Cirq/CirqOracles/Simon/simon_tests.py` — `run_test`

Python `while` loops are embedded with an explicit fuel argument; in every case
the fuel passed by the top-level wrapper is proved sufficient, so exhaustion is
unreachable and the Lean functions compute exactly what the Python does.
Python exceptions (`ZeroDivisionError`, `ValueError`) are modelled by `Option`,
with `none` for a raised exception.  Python `//` and `%` on integers are floor
division, i.e. `Int.fdiv` and `Int.fmod`.
-/

namespace QSFE

/-! ## Modular arithmetic library (`Forest/ForestNonOracles/shor_math.py`) -/

/-- `sign` from `shor_math.py`: -1, 0 or 1 according to the sign of `value`. -/
def sign (value : ℤ) : ℤ :=
  if value < 0 then -1
  else if value = 0 then 0
  else 1

/-- `gcd_recursion` from `shor_math.py`.  The first argument is fuel for the
recursion (the Python recursion terminates because `r_2` strictly decreases;
the wrapper `extended_gcd` passes enough fuel, see `gcd_recursion_spec`). -/
def gcd_recursion : ℕ → ℤ → ℤ → ℤ × ℤ → ℤ × ℤ → ℤ × ℤ → ℤ × ℤ
  | 0, _, _, _, _, _ => (0, 0)
  | fuel + 1, sign_a, sign_b, (r_1, r_2), (s_1, s_2), (t_1, t_2) =>
    if r_2 = 0 then (s_1 * sign_a, t_1 * sign_b)
    else
      let quotient := r_1.fdiv r_2
      gcd_recursion fuel sign_a sign_b (r_2, r_1 - quotient * r_2)
        (s_2, s_1 - quotient * s_2) (t_2, t_1 - quotient * t_2)

/-- `extended_gcd` from `shor_math.py`: returns `(u, v)` with
`u*a + v*b = gcd a b` (gcd taken positive). -/
def extended_gcd (a b : ℤ) : ℤ × ℤ :=
  gcd_recursion (b.natAbs + 1) (sign a) (sign b) (a * sign a, b * sign b) (1, 0) (0, 1)

/-- `get_modulus_residue` from `shor_math.py`: canonical residue; `none`
models the `ValueError` raised for a non-positive modulus. -/
def get_modulus_residue (value modulus : ℤ) : Option ℤ :=
  if modulus ≤ 0 then none
  else
    let r := value.fmod modulus
    if r < 0 then some (r + modulus) else some r

/-- `inverse_mod` from `shor_math.py`: modular inverse; `none` models the
`ValueError` raised when the computed gcd is not 1. -/
def inverse_mod (a modulus : ℤ) : Option ℤ :=
  let uv := extended_gcd a modulus
  let gcd := uv.1 * a + uv.2 * modulus
  if gcd ≠ 1 then none
  else get_modulus_residue uv.1 modulus

/-- Invariant proof for `gcd_recursion`: with non-negative remainders, enough
fuel, and Bézout bookkeeping for base values `A`, `B`, the recursion returns
`(S * sign_a, T * sign_b)` where `S*A + T*B` is a non-negative common divisor
of `A` and `B` divisible by every common divisor. -/
theorem gcd_recursion_spec (fuel : ℕ) :
    ∀ sa sb A B r1 r2 s1 s2 t1 t2 : ℤ,
      0 ≤ r1 → 0 ≤ r2 → r2.toNat < fuel →
      s1 * A + t1 * B = r1 → s2 * A + t2 * B = r2 →
      (∀ d : ℤ, (d ∣ r1 ∧ d ∣ r2) ↔ (d ∣ A ∧ d ∣ B)) →
      ∃ S T g : ℤ,
        gcd_recursion fuel sa sb (r1, r2) (s1, s2) (t1, t2) = (S * sa, T * sb) ∧
        S * A + T * B = g ∧ 0 ≤ g ∧ (∀ d : ℤ, d ∣ g ↔ (d ∣ A ∧ d ∣ B)) := by
  induction fuel with
  | zero =>
    intro sa sb A B r1 r2 s1 s2 t1 t2 h1 h2 hf
    exact absurd hf (Nat.not_lt_zero _)
  | succ fuel ih =>
    intro sa sb A B r1 r2 s1 s2 t1 t2 h1 h2 hf hs ht hdvd
    by_cases hr2 : r2 = 0
    · refine ⟨s1, t1, r1, ?_, hs, h1, ?_⟩
      · simp [gcd_recursion, hr2]
      · intro d
        rw [← hdvd d]
        subst hr2
        simp
    · have hr2pos : 0 < r2 := lt_of_le_of_ne h2 (Ne.symm hr2)
      have hfd : r1.fdiv r2 = r1 / r2 := Int.fdiv_eq_ediv r1 h2
      have hrem : r1 - r1.fdiv r2 * r2 = r1 % r2 := by
        rw [hfd, Int.emod_def]
        ring
      have hrem_nonneg : 0 ≤ r1 % r2 := Int.emod_nonneg r1 hr2
      have hrem_lt : r1 % r2 < r2 := Int.emod_lt_of_pos r1 hr2pos
      have hfuel : (r1 % r2).toNat < fuel := by
        have h' : (r1 % r2).toNat < r2.toNat := by
          omega
        omega
      have hs' : s2 * A + t2 * B = r2 := ht
      have ht' : (s1 - r1.fdiv r2 * s2) * A + (t1 - r1.fdiv r2 * t2) * B
          = r1 - r1.fdiv r2 * r2 := by
        have : (s1 - r1.fdiv r2 * s2) * A + (t1 - r1.fdiv r2 * t2) * B
            = (s1 * A + t1 * B) - r1.fdiv r2 * (s2 * A + t2 * B) := by ring
        rw [this, hs, ht]
      have hdvd' : ∀ d : ℤ, (d ∣ r2 ∧ d ∣ r1 - r1.fdiv r2 * r2) ↔ (d ∣ A ∧ d ∣ B) := by
        intro d
        rw [← hdvd d]
        constructor
        · rintro ⟨hd2, hdr⟩
          refine ⟨?_, hd2⟩
          have : r1 = r1 - r1.fdiv r2 * r2 + r1.fdiv r2 * r2 := by ring
          rw [this]
          exact dvd_add hdr (Dvd.dvd.mul_left hd2 _)
        · rintro ⟨hd1, hd2⟩
          exact ⟨hd2, dvd_sub hd1 (Dvd.dvd.mul_left hd2 _)⟩
      have step : gcd_recursion (fuel + 1) sa sb (r1, r2) (s1, s2) (t1, t2)
          = gcd_recursion fuel sa sb (r2, r1 - r1.fdiv r2 * r2)
              (s2, s1 - r1.fdiv r2 * s2) (t2, t1 - r1.fdiv r2 * t2) := by
        simp [gcd_recursion, hr2]
      rw [step]
      have hrem' : 0 ≤ r1 - r1.fdiv r2 * r2 := by rw [hrem]; exact hrem_nonneg
      have hfuel' : (r1 - r1.fdiv r2 * r2).toNat < fuel := by rw [hrem]; exact hfuel
      exact ih sa sb A B r2 (r1 - r1.fdiv r2 * r2) s2 (s1 - r1.fdiv r2 * s2)
        t2 (t1 - r1.fdiv r2 * t2) h2 hrem' hfuel' hs' ht' hdvd'

/-- `sign value * value = |value|`. -/
theorem sign_mul_self (a : ℤ) : a * sign a = |a| := by
  unfold sign
  rcases lt_trichotomy a 0 with h | h | h
  · rw [if_pos h, abs_of_neg h]; ring
  · subst h; simp
  · rw [if_neg (not_lt.mpr h.le), if_neg h.ne', abs_of_pos h]; ring

/-- The key property of `extended_gcd`: its result `(u, v)` satisfies
`u*a + v*b = gcd a b` (Mathlib's non-negative `Int.gcd`); shared by the
theorems about C2 and C5. -/
theorem extended_gcd_eq_gcd (a b : ℤ) :
    (extended_gcd a b).1 * a + (extended_gcd a b).2 * b = Int.gcd a b := by
  have habs_a : a * sign a = |a| := sign_mul_self a
  have habs_b : b * sign b = |b| := sign_mul_self b
  have h1 : (0 : ℤ) ≤ a * sign a := by rw [habs_a]; exact abs_nonneg a
  have h2 : (0 : ℤ) ≤ b * sign b := by rw [habs_b]; exact abs_nonneg b
  have hf : (b * sign b).toNat < b.natAbs + 1 := by
    have : b * sign b = (b.natAbs : ℤ) := by rw [habs_b, Int.abs_eq_natAbs]
    rw [this]
    simp
  have hs : 1 * (a * sign a) + 0 * (b * sign b) = a * sign a := by ring
  have ht : 0 * (a * sign a) + 1 * (b * sign b) = b * sign b := by ring
  have hdvd : ∀ d : ℤ, (d ∣ a * sign a ∧ d ∣ b * sign b) ↔
      (d ∣ a * sign a ∧ d ∣ b * sign b) := fun d => Iff.rfl
  obtain ⟨S, T, g, heq, hcomb, hg, hgdvd⟩ :=
    gcd_recursion_spec (b.natAbs + 1) (sign a) (sign b) (a * sign a) (b * sign b)
      (a * sign a) (b * sign b) 1 0 0 1 h1 h2 hf hs ht hdvd
  have hres : extended_gcd a b = (S * sign a, T * sign b) := heq
  rw [hres]
  -- `u * a = S * |a|`, `v * b = T * |b|`
  have hua : S * sign a * a = S * |a| := by
    rw [mul_assoc, mul_comm (sign a) a, habs_a]
  have hvb : T * sign b * b = T * |b| := by
    rw [mul_assoc, mul_comm (sign b) b, habs_b]
  have hcomb' : S * sign a * a + T * sign b * b = g := by
    rw [hua, hvb, ← habs_a, ← habs_b]
    exact hcomb
  rw [hcomb']
  -- g is the (non-negative) gcd of a and b
  have hdvd_a : g ∣ a := by
    have h := (hgdvd g).mp dvd_rfl
    have hga : g ∣ |a| := by rw [← habs_a]; exact h.1
    exact (dvd_abs g a).mp hga
  have hdvd_b : g ∣ b := by
    have h := (hgdvd g).mp dvd_rfl
    have hgb : g ∣ |b| := by rw [← habs_b]; exact h.2
    exact (dvd_abs g b).mp hgb
  have hgcd_dvd_g : (Int.gcd a b : ℤ) ∣ g := by
    rw [hgdvd, habs_a, habs_b]
    exact ⟨(dvd_abs _ a).mpr Int.gcd_dvd_left, (dvd_abs _ b).mpr Int.gcd_dvd_right⟩
  have hg_dvd_gcd : g ∣ (Int.gcd a b : ℤ) := Int.dvd_gcd hdvd_a hdvd_b
  exact Int.dvd_antisymm hg (Int.natCast_nonneg _) hg_dvd_gcd hgcd_dvd_g

/-- C2 (amended): for every integer pair `(a, b)` other than `(0, 0)` —
negative inputs and a single zero included — `extended_gcd a b` returns
`(u, v)` with `u*a + v*b = gcd a b` and `gcd a b > 0`.  (At `(0, 0)` the gcd
is 0, not positive; see the counterexample.) -/
theorem extended_gcd_bezout (a b : ℤ) (h : ¬(a = 0 ∧ b = 0)) :
    (extended_gcd a b).1 * a + (extended_gcd a b).2 * b = Int.gcd a b ∧
      0 < Int.gcd a b := by
  refine ⟨extended_gcd_eq_gcd a b, ?_⟩
  rw [Int.gcd_pos_iff]
  by_cases ha : a = 0
  · exact Or.inr (fun hb => h ⟨ha, hb⟩)
  · exact Or.inl ha

/-- Witness for C2 at the spec's concrete scenario `extended_gcd 35 15`:
the Bézout identity holds with positive gcd (which is 5). -/
theorem extended_gcd_bezout_witness :
    ¬((35 : ℤ) = 0 ∧ (15 : ℤ) = 0) ∧
      ((extended_gcd 35 15).1 * 35 + (extended_gcd 35 15).2 * 15 = Int.gcd 35 15 ∧
        0 < Int.gcd (35 : ℤ) 15) :=
  ⟨by decide, extended_gcd_bezout 35 15 (by decide)⟩

/-- Counterexample to C2 as stated: at `(a, b) = (0, 0)` the code returns
`(0, 0)` and there is no positive gcd (`gcd 0 0 = 0`), so the claim's
`gcd(a,b) > 0` fails. -/
theorem extended_gcd_zero_zero_cex :
    ¬((extended_gcd 0 0).1 * 0 + (extended_gcd 0 0).2 * 0 = Int.gcd 0 0 ∧
        0 < Int.gcd (0 : ℤ) 0) := by
  decide

/-- C5 (amended): for a modulus `m ≥ 2`, if `a` and `m` are coprime then
`inverse_mod a m` succeeds with a `b` such that `(a*b) mod m = 1` (Python
`%` = `Int.fmod`), and if the gcd is not 1 it fails with the `NotCoprime`
`ValueError` (modelled by `none`).  (For `m = 1` the code succeeds but the
product residue is 0, not 1; see the counterexample.) -/
theorem inverse_mod_spec (a m : ℤ) (hm : 2 ≤ m) :
    (Int.gcd a m = 1 → ∃ b, inverse_mod a m = some b ∧ (a * b).fmod m = 1) ∧
      (Int.gcd a m ≠ 1 → inverse_mod a m = none) := by
  have hgcd := extended_gcd_eq_gcd a m
  have hmpos : (0 : ℤ) < m := by omega
  constructor
  · intro hcop
    have hone : (extended_gcd a m).1 * a + (extended_gcd a m).2 * m = 1 := by
      rw [hgcd, hcop]; simp
    set u := (extended_gcd a m).1 with hu
    set v := (extended_gcd a m).2 with hv
    have hdef : inverse_mod a m =
        if u * a + v * m ≠ 1 then none else get_modulus_residue u m := rfl
    have hres : inverse_mod a m = get_modulus_residue u m := by
      rw [hdef, if_neg (by simp [hone])]
    have hfm : u.fmod m = u % m := Int.fmod_eq_emod u hmpos.le
    have hrnn : 0 ≤ u % m := Int.emod_nonneg u (by omega)
    have hresid : get_modulus_residue u m = some (u % m) := by
      unfold get_modulus_residue
      rw [if_neg (by omega), hfm, if_neg (by omega)]
    refine ⟨u % m, by rw [hres, hresid], ?_⟩
    have hfm2 : (a * (u % m)).fmod m = (a * (u % m)) % m :=
      Int.fmod_eq_emod _ hmpos.le
    rw [hfm2]
    have step1 : a * (u % m) % m = a * u % m := by
      rw [Int.mul_emod, Int.emod_emod_of_dvd u dvd_rfl, ← Int.mul_emod]
    have step2 : a * u = 1 + m * (-v) := by
      have : u * a + v * m = 1 := hone
      linarith [this]
    rw [step1, step2, Int.add_mul_emod_self_left]
    exact Int.emod_eq_of_lt (by omega) (by omega)
  · intro hncop
    have hne : (extended_gcd a m).1 * a + (extended_gcd a m).2 * m ≠ 1 := by
      rw [hgcd]
      intro hcontr
      exact hncop (by exact_mod_cast hcontr)
    have hdef : inverse_mod a m =
        if (extended_gcd a m).1 * a + (extended_gcd a m).2 * m ≠ 1 then none
        else get_modulus_residue (extended_gcd a m).1 m := rfl
    rw [hdef, if_pos hne]

/-- Witness for C5 at the spec's concrete scenario `inverse_mod 3 7 = 5`. -/
theorem inverse_mod_spec_witness :
    (2 : ℤ) ≤ 7 ∧
      ((Int.gcd (3 : ℤ) 7 = 1 →
          ∃ b, inverse_mod 3 7 = some b ∧ ((3 : ℤ) * b).fmod 7 = 1) ∧
        (Int.gcd (3 : ℤ) 7 ≠ 1 → inverse_mod 3 7 = none)) :=
  ⟨by decide, inverse_mod_spec 3 7 (by decide)⟩

/-- Counterexample to C5 as stated: `a = 5`, `modulus = 1` are coprime, yet
the returned inverse is 0 and `(5*0) mod 1 = 0 ≠ 1`. -/
theorem inverse_mod_one_cex :
    Int.gcd (5 : ℤ) 1 = 1 ∧ inverse_mod 5 1 = some 0 ∧
      ((5 : ℤ) * 0).fmod 1 ≠ 1 := by
  decide

/-! ## Continued-fraction convergents (`Cirq/CirqNonOracles/shor.py`) -/

/-- The `while True` loop of `find_continued_fraction_convergent` from
`shor.py`.  State: `num`/`den` are `P_i`/`Q_i`, `n1`/`n2` are
`n_(i-1)`/`n_(i-2)`, `d1`/`d2` are `d_(i-1)`/`d_(i-2)`.  The loop terminates
because the Euclidean remainder (the next `den`) strictly decreases, so the
wrapper's fuel of `denominator` is enough; `none` models `ZeroDivisionError`
on a zero denominator. -/
def find_convergent_loop : ℕ → ℕ → ℕ → ℕ → ℕ → ℕ → ℕ → ℕ → Option (ℕ × ℕ)
  | 0, _, _, _, _, _, _, _ => none
  | fuel + 1, num, den, threshold, n1, n2, d1, d2 =>
    if den = 0 then none
    else
      let coefficient := num / den
      let conv_num := coefficient * n1 + n2
      let conv_den := coefficient * d1 + d2
      let remainder := num % den
      if conv_den > threshold then some (n1, d1)
      else if remainder = 0 then some (conv_num, conv_den)
      else find_convergent_loop fuel den remainder threshold conv_num n1 conv_den d1

/-- `find_continued_fraction_convergent` from `shor.py`, seeded with
`(n_(-1), n_(-2)) = (1, 0)` and `(d_(-1), d_(-2)) = (0, 1)`. -/
def find_continued_fraction_convergent (numerator denominator denominator_threshold : ℕ) :
    Option (ℕ × ℕ) :=
  find_convergent_loop denominator numerator denominator denominator_threshold 1 0 0 1

/-- Reference definition (mathematics, not code): the list of convergents
`(n_i, d_i)` of the continued-fraction expansion of `num/den`, produced by
the standard Euclidean recurrence `n_i = a_i*n_(i-1) + n_(i-2)` (same for
`d`).  Used to state what the code's result is a convergent *of*. -/
def convergents_loop : ℕ → ℕ → ℕ → ℕ → ℕ → ℕ → ℕ → List (ℕ × ℕ)
  | 0, _, _, _, _, _, _ => []
  | fuel + 1, num, den, n1, n2, d1, d2 =>
    if den = 0 then []
    else
      let a := num / den
      let n := a * n1 + n2
      let d := a * d1 + d2
      let r := num % den
      (n, d) :: (if r = 0 then [] else convergents_loop fuel den r n n1 d d1)

/-- All convergents of `num/den`. -/
def convergents (num den : ℕ) : List (ℕ × ℕ) :=
  convergents_loop den num den 1 0 0 1

/-- Convergent denominators grow: every convergent produced from a state with
previous denominators `d1`, `d2` (and a proper Euclidean state `den ≤ num`,
`0 < den`) has denominator at least `d1 + d2`. -/
theorem convergents_loop_den_ge (fuel : ℕ) :
    ∀ num den n1 n2 d1 d2, 0 < den → den ≤ num →
      ∀ x ∈ convergents_loop fuel num den n1 n2 d1 d2, d1 + d2 ≤ x.2 := by
  induction fuel with
  | zero => intro num den n1 n2 d1 d2 _ _ x hx; simp [convergents_loop] at hx
  | succ fuel ih =>
    intro num den n1 n2 d1 d2 hden hle x hx
    rw [convergents_loop, if_neg (Nat.pos_iff_ne_zero.mp hden)] at hx
    have ha : 1 ≤ num / den := (Nat.one_le_div_iff hden).mpr hle
    have hd : d1 + d2 ≤ num / den * d1 + d2 := by
      have := Nat.mul_le_mul_right d1 ha
      omega
    rcases List.mem_cons.mp hx with hhead | htail
    · rw [hhead]
      exact hd
    · by_cases hr : num % den = 0
      · rw [if_pos hr] at htail
        simp at htail
      · rw [if_neg hr] at htail
        have hrpos : 0 < num % den := Nat.pos_iff_ne_zero.mpr hr
        have hrle : num % den ≤ den := (Nat.mod_lt num hden).le
        have := ih den (num % den) (num / den * n1 + n2) n1
          (num / den * d1 + d2) d1 hrpos hrle x htail
        omega

/-- Master invariant for the convergent search: starting from any proper
loop state, the loop returns either the largest convergent (of the remaining
expansion) whose denominator is within the threshold, or the previous pair
when every remaining convergent overshoots the threshold. -/
theorem find_convergent_loop_spec (fuel : ℕ) :
    ∀ num den T n1 n2 d1 d2, 0 < den → den ≤ fuel →
      ∃ n d, find_convergent_loop fuel num den T n1 n2 d1 d2 = some (n, d) ∧
        (((n, d) ∈ convergents_loop fuel num den n1 n2 d1 d2 ∧ d ≤ T ∧
            ∀ x ∈ convergents_loop fuel num den n1 n2 d1 d2, x.2 ≤ T → x.2 ≤ d) ∨
          ((n, d) = (n1, d1) ∧
            ∀ x ∈ convergents_loop fuel num den n1 n2 d1 d2, T < x.2)) := by
  induction fuel with
  | zero => intro num den T n1 n2 d1 d2 hden hle; omega
  | succ fuel ih =>
    intro num den T n1 n2 d1 d2 hden hle
    have hdz : ¬den = 0 := Nat.pos_iff_ne_zero.mp hden
    rw [find_convergent_loop, if_neg hdz]
    rw [convergents_loop, if_neg hdz]
    simp only []
    set a := num / den with ha
    set n := a * n1 + n2 with hn
    set d := a * d1 + d2 with hd
    set r := num % den with hr
    by_cases hdT : d > T
    · -- current convergent overshoots: return the previous pair
      refine ⟨n1, d1, by rw [if_pos hdT], Or.inr ⟨rfl, ?_⟩⟩
      intro x hx
      rcases List.mem_cons.mp hx with hhead | htail
      · rw [hhead]; exact hdT
      · by_cases hrz : r = 0
        · rw [if_pos hrz] at htail; simp at htail
        · rw [if_neg hrz] at htail
          have hrpos : 0 < r := Nat.pos_iff_ne_zero.mpr hrz
          have hrle : r ≤ den := (Nat.mod_lt num hden).le
          have := convergents_loop_den_ge fuel den r n n1 d d1 hrpos hrle x htail
          omega
    · rw [if_neg hdT]
      by_cases hrz : r = 0
      · -- exact final convergent, within threshold
        refine ⟨n, d, by rw [if_pos hrz], Or.inl ⟨?_, by omega, ?_⟩⟩
        · rw [if_pos hrz]; exact List.mem_singleton.mpr rfl
        · rw [if_pos hrz]
          intro x hx _
          rcases List.mem_cons.mp hx with hhead | htail
          · rw [hhead]
          · simp at htail
      · -- keep expanding
        rw [if_neg hrz, if_neg hrz]
        have hrpos : 0 < r := Nat.pos_iff_ne_zero.mpr hrz
        have hrfuel : r ≤ fuel := by
          have : r < den := Nat.mod_lt num hden
          omega
        obtain ⟨n', d', heq, hcase⟩ := ih den r T n n1 d d1 hrpos hrfuel
        refine ⟨n', d', heq, ?_⟩
        have hrle : r ≤ den := (Nat.mod_lt num hden).le
        rcases hcase with ⟨hmem, hdT', hmax⟩ | ⟨hprev, hover⟩
        · refine Or.inl ⟨List.mem_cons_of_mem _ hmem, hdT', ?_⟩
          intro x hx hxT
          rcases List.mem_cons.mp hx with hhead | htail
          · rw [hhead]
            have := convergents_loop_den_ge fuel den r n n1 d d1 hrpos hrle
              (n', d') hmem
            omega
          · exact hmax x htail hxT
        · have hn' : n' = n := congrArg Prod.fst hprev
          have hd' : d' = d := congrArg Prod.snd hprev
          subst hn'
          subst hd'
          refine Or.inl ⟨List.mem_cons_self _ _, by omega, ?_⟩
          intro x hx hxT
          rcases List.mem_cons.mp hx with hhead | htail
          · rw [hhead]
          · exact absurd hxT (not_le.mpr (hover x htail))

/-- Helper form of the statement proved for C1, shared with the period-finding
development: for `q ≥ 1`, `T ≥ 1`, the search returns the largest convergent
of `p/q` whose denominator is within `T`. -/
theorem find_convergent_full_spec (p q T : ℕ) (hq : 0 < q) (hT : 1 ≤ T) :
    ∃ n d, find_continued_fraction_convergent p q T = some (n, d) ∧
      (n, d) ∈ convergents p q ∧ d ≤ T ∧
      ∀ x ∈ convergents p q, x.2 ≤ T → x.2 ≤ d := by
  obtain ⟨n, d, heq, hcase⟩ :=
    find_convergent_loop_spec q p q T 1 0 0 1 hq le_rfl
  rcases hcase with ⟨hmem, hdT, hmax⟩ | ⟨hprev, hover⟩
  · exact ⟨n, d, heq, hmem, hdT, hmax⟩
  · -- impossible: the first convergent has denominator 1 ≤ T
    exfalso
    obtain ⟨k, hk⟩ : ∃ k, q = k + 1 := ⟨q - 1, by omega⟩
    have hhead : (p / q, 1) ∈ convergents_loop q p q 1 0 0 1 := by
      rw [hk]
      rw [convergents_loop, if_neg (by omega)]
      have : p / (k + 1) * 0 + 1 = 1 := by omega
      rw [← hk]
      exact List.mem_cons.mpr (Or.inl (by simp))
    have := hover (p / q, 1) hhead
    omega

/-- C1 (amended): for `q ≥ 1` and threshold `T ≥ 1`,
`find_continued_fraction_convergent p q T` terminates with a pair `(n, d)`
that is a convergent of the continued-fraction expansion of `p/q`, with
`d ≤ T` and `d` maximal among the convergents whose denominator is within
`T`.  (For `T = 0` the code returns the seed pair `(1, 0)`, which is not a
convergent, and for `q = 0` Python raises `ZeroDivisionError`; see the
counterexample.) -/
theorem find_continued_fraction_convergent_spec (p q T : ℕ) (hq : 0 < q) (hT : 1 ≤ T) :
    ∃ n d, find_continued_fraction_convergent p q T = some (n, d) ∧
      (n, d) ∈ convergents p q ∧ d ≤ T ∧
      ∀ x ∈ convergents p q, x.2 ≤ T → x.2 ≤ d :=
  find_convergent_full_spec p q T hq hT

/-- Witness for C1 (amended) at `p/q = 1/2`, threshold 2: the convergent
returned is `1/2`, largest within the threshold. -/
theorem find_continued_fraction_convergent_spec_witness :
    0 < 2 ∧ 1 ≤ 2 ∧
      ∃ n d, find_continued_fraction_convergent 1 2 2 = some (n, d) ∧
        (n, d) ∈ convergents 1 2 ∧ d ≤ 2 ∧
        ∀ x ∈ convergents 1 2, x.2 ≤ 2 → x.2 ≤ d :=
  ⟨by decide, by decide,
    find_continued_fraction_convergent_spec 1 2 2 (by decide) (by decide)⟩

/-- Counterexample to C1 as stated: with threshold `T = 0` the code returns
the seed pair `(1, 0)`, which is not a convergent of `1/2` (the convergents
are `0/1` and `1/2`). -/
theorem find_continued_fraction_convergent_threshold_zero_cex :
    find_continued_fraction_convergent 1 2 0 = some (1, 0) ∧
      (1, 0) ∉ convergents 1 2 := by
  decide

/-- Every convergent of `p/q` (for `q ≥ 1`) has a positive denominator. -/
theorem convergents_den_pos (p q : ℕ) (hq : 0 < q) :
    ∀ x ∈ convergents p q, 1 ≤ x.2 := by
  intro x hx
  unfold convergents at hx
  obtain ⟨k, hk⟩ : ∃ k, q = k + 1 := ⟨q - 1, by omega⟩
  rw [hk] at hx
  rw [convergents_loop, if_neg (by omega)] at hx
  rcases List.mem_cons.mp hx with hhead | htail
  · rw [hhead]
    simp
  · by_cases hr : p % (k + 1) = 0
    · rw [if_pos hr] at htail; simp at htail
    · rw [if_neg hr] at htail
      have hrpos : 0 < p % (k + 1) := Nat.pos_iff_ne_zero.mpr hr
      have hrle : p % (k + 1) ≤ k + 1 := (Nat.mod_lt p (by omega)).le
      have := convergents_loop_den_ge k (k + 1) (p % (k + 1))
        (p / (k + 1) * 1 + 0) 1 (p / (k + 1) * 0 + 1) 0 hrpos hrle x htail
      omega

/-- A successful convergent search with a positive threshold returns a
positive denominator. -/
theorem fcfc_den_pos (p q T un d : ℕ) (hT : 1 ≤ T)
    (h : find_continued_fraction_convergent p q T = some (un, d)) : 1 ≤ d := by
  rcases Nat.eq_zero_or_pos q with hq | hq
  · subst hq
    simp [find_continued_fraction_convergent, find_convergent_loop] at h
  · obtain ⟨n', d', heq, hmem, _, _⟩ := find_convergent_full_spec p q T hq hT
    rw [h] at heq
    have hd : d = d' := congrArg Prod.snd (Option.some.inj heq)
    rw [hd]
    exact convergents_den_pos p q hq (n', d') hmem

/-! ## Shor period-finding driver (`Cirq/CirqNonOracles/shor.py`) -/

/-- The `while remainder != 1` loop of `find_period_of_modular_exponentiation`
from `shor.py`.  The external quantum subroutine's successive measurement
results `X'` are supplied as the list `measurements`; `number_of_states` is
the constant `N = 2^len(input)` the subroutine reports alongside each
measurement.  `none` models an exhausted measurement stream (the real loop
would keep querying the quantum collaborator) as well as the Python errors on
degenerate arguments (`ZeroDivisionError` in the convergent search or the gcd
division, `pow` with zero modulus); `some (-1)` is the code's "three strikes"
sentinel; any other `some p` is the period found. -/
def find_period_loop (number_to_factor guess number_of_states : ℕ) :
    List ℕ → ℕ → ℕ → Option ℤ
  | [], _, _ => none
  | m :: rest, period, number_of_zero_measurements =>
    if m = 0 then
      if number_of_zero_measurements + 1 = 3 then some (-1)
      else find_period_loop number_to_factor guess number_of_states rest period
        (number_of_zero_measurements + 1)
    else
      match find_continued_fraction_convergent m number_of_states number_to_factor with
      | none => none
      | some (_, factor_of_period) =>
        if Nat.gcd factor_of_period period = 0 then none
        else
          let period' := factor_of_period * period / Nat.gcd factor_of_period period
          if number_to_factor = 0 then none
          else
            let remainder := guess ^ period' % number_to_factor
            if remainder = 1 then some (period' : ℤ)
            else find_period_loop number_to_factor guess number_of_states rest period'
              number_of_zero_measurements

/-- `find_period_of_modular_exponentiation` from `shor.py`, with the quantum
subroutine's measurement stream as an explicit argument.  In the source,
`number_of_states = 2^(2*b)` with `b` the bit length of `number_to_factor`,
computed inside the quantum subroutine.  Initial state: `period = 1`,
`number_of_zero_measurements = 0`. -/
def find_period_of_modular_exponentiation
    (number_to_factor guess number_of_states : ℕ) (measurements : List ℕ) : Option ℤ :=
  find_period_loop number_to_factor guess number_of_states measurements 1 0

/-- Whether a list contains three consecutive zeros (used to state the
counterexample to the "3 consecutive zero measurements" reading). -/
def has_three_consecutive_zeros : List ℕ → Bool
  | 0 :: 0 :: 0 :: _ => true
  | _ :: rest => has_three_consecutive_zeros rest
  | [] => false

/-- C3 (amended): the period-finding driver counts zero measurements
cumulatively (the counter is never reset by a nonzero measurement) and
returns the sentinel `-1` exactly upon consuming a zero measurement that
brings the cumulative count to the fixed policy bound 3: whenever the loop
returns `-1`, the consumed trace splits as `pre ++ 0 :: post` with
`zeros + count₀(pre) + 1 = 3`; and conversely a trace beginning with three
zeros aborts at the third one. -/
theorem find_period_abort_at_third_cumulative_zero :
    (∀ (n g ns : ℕ) (ms : List ℕ) (period zeros : ℕ),
        find_period_loop n g ns ms period zeros = some (-1) →
        ∃ pre post, ms = pre ++ 0 :: post ∧ zeros + pre.count 0 + 1 = 3) ∧
      (∀ (n g ns : ℕ) (rest : List ℕ) (period : ℕ),
        find_period_loop n g ns (0 :: 0 :: 0 :: rest) period 0 = some (-1)) := by
  constructor
  · intro n g ns ms
    induction ms with
    | nil =>
      intro period zeros h
      simp [find_period_loop] at h
    | cons m rest ih =>
      intro period zeros h
      by_cases hm : m = 0
      · subst hm
        rw [find_period_loop] at h
        rw [if_pos rfl] at h
        by_cases hz : zeros + 1 = 3
        · exact ⟨[], rest, rfl, by simpa using hz⟩
        · rw [if_neg hz] at h
          obtain ⟨pre, post, hsplit, hcount⟩ := ih period (zeros + 1) h
          refine ⟨0 :: pre, post, by simp [hsplit], ?_⟩
          simp only [List.count_cons]
          simp at hcount ⊢
          omega
      · rw [find_period_loop, if_neg hm] at h
        rcases hconv : find_continued_fraction_convergent m ns n with _ | ⟨un, f⟩
        · rw [hconv] at h; simp at h
        · rw [hconv] at h
          simp only [] at h
          by_cases hgcd : Nat.gcd f period = 0
          · rw [if_pos hgcd] at h; simp at h
          · rw [if_neg hgcd] at h
            by_cases hn : n = 0
            · rw [if_pos hn] at h; simp at h
            · rw [if_neg hn] at h
              by_cases hrem : g ^ (f * period / Nat.gcd f period) % n = 1
              · rw [if_pos hrem] at h
                have hinj := Option.some.inj h
                have h0 : (0 : ℤ) ≤ ((f * period / Nat.gcd f period : ℕ) : ℤ) :=
                  Int.natCast_nonneg _
                omega
              · rw [if_neg hrem] at h
                obtain ⟨pre, post, hsplit, hcount⟩ :=
                  ih (f * period / Nat.gcd f period) zeros h
                refine ⟨m :: pre, post, by simp [hsplit], ?_⟩
                rw [List.count_cons]
                simp only [beq_iff_eq]
                rw [if_neg hm]
                omega
  · intro n g ns rest period
    rfl

/-- Witness for C3 (amended), on the trace `[0, 512, 0, 512, 0]` for
`number_to_factor = 21`, `guess = 11`, `N = 1024`: the abort happens at the
third cumulative zero. -/
theorem find_period_abort_witness :
    (∃ pre post, ([0, 512, 0, 512, 0] : List ℕ) = pre ++ 0 :: post ∧
        0 + pre.count 0 + 1 = 3) ∧
      find_period_loop 21 11 1024 (0 :: 0 :: 0 :: [7]) 5 0 = some (-1) :=
  ⟨find_period_abort_at_third_cumulative_zero.1 21 11 1024 [0, 512, 0, 512, 0] 1 0
      (by decide),
    find_period_abort_at_third_cumulative_zero.2 21 11 1024 [7] 5⟩

/-- Counterexample to C3 as stated: on the trace `[0, 512, 0, 512, 0]`
(zero measurements interleaved with nonzero ones, never three in a row) the
driver still aborts with `-1` — the zero counter is cumulative, not a count
of consecutive zeros. -/
theorem find_period_nonconsecutive_zeros_cex :
    find_period_of_modular_exponentiation 21 11 1024 [0, 512, 0, 512, 0] = some (-1) ∧
      has_three_consecutive_zeros [0, 512, 0, 512, 0] = false := by
  constructor
  · decide
  · rfl

/-- C9: across the period-finding loop the period candidate is updated only
by lcm-combination with the extracted convergent denominator and is
monotonically non-decreasing, and the loop finalizes exactly when
`guess^period mod N = 1`.  Stated as:
(i) whenever the loop started at candidate `period ≥ 1` (with `N ≥ 1`)
returns a found period `p ≠ -1`, that period is a multiple of (hence at
least) every intermediate candidate and satisfies `g^p mod N = 1`; and
(ii) one nonzero-measurement step replaces the candidate by exactly
`lcm(factor_of_period, period)`, returning it immediately iff
`g^lcm mod N = 1` and looping otherwise. -/
theorem find_period_lcm_monotone_finalize :
    (∀ (n g ns : ℕ) (ms : List ℕ) (period zeros : ℕ) (p : ℤ),
        1 ≤ n → 1 ≤ period →
        find_period_loop n g ns ms period zeros = some p → p ≠ -1 →
        ∃ P : ℕ, p = (P : ℤ) ∧ period ∣ P ∧ period ≤ P ∧ g ^ P % n = 1) ∧
      (∀ (n g ns m : ℕ) (ms : List ℕ) (period zeros un f : ℕ),
        ¬m = 0 → find_continued_fraction_convergent m ns n = some (un, f) →
        1 ≤ n → 1 ≤ f →
        (g ^ Nat.lcm f period % n = 1 →
          find_period_loop n g ns (m :: ms) period zeros =
            some ((Nat.lcm f period : ℕ) : ℤ)) ∧
        (¬g ^ Nat.lcm f period % n = 1 →
          find_period_loop n g ns (m :: ms) period zeros =
            find_period_loop n g ns ms (Nat.lcm f period) zeros)) := by
  constructor
  · intro n g ns ms
    induction ms with
    | nil =>
      intro period zeros p hn hper h
      simp [find_period_loop] at h
    | cons m rest ih =>
      intro period zeros p hn hper h hp
      by_cases hm : m = 0
      · subst hm
        rw [find_period_loop, if_pos rfl] at h
        by_cases hz : zeros + 1 = 3
        · rw [if_pos hz] at h
          exact absurd (Option.some.inj h).symm hp
        · rw [if_neg hz] at h
          exact ih period (zeros + 1) p hn hper h hp
      · rw [find_period_loop, if_neg hm] at h
        rcases hconv : find_continued_fraction_convergent m ns n with _ | ⟨un, f⟩
        · rw [hconv] at h; simp at h
        · rw [hconv] at h
          simp only [] at h
          have hf : 1 ≤ f := fcfc_den_pos m ns n un f hn hconv
          have hgcd : 0 < Nat.gcd f period := Nat.gcd_pos_of_pos_left period hf
          rw [if_neg (by omega)] at h
          rw [if_neg (by omega)] at h
          have hlcm : f * period / Nat.gcd f period = Nat.lcm f period := rfl
          rw [hlcm] at h
          have hlcmpos : 0 < Nat.lcm f period := Nat.lcm_pos (by omega) (by omega)
          have hdvd : period ∣ Nat.lcm f period := Nat.dvd_lcm_right f period
          have hle : period ≤ Nat.lcm f period := Nat.le_of_dvd hlcmpos hdvd
          by_cases hrem : g ^ Nat.lcm f period % n = 1
          · rw [if_pos hrem] at h
            refine ⟨Nat.lcm f period, (Option.some.inj h).symm, hdvd, hle, hrem⟩
          · rw [if_neg hrem] at h
            obtain ⟨P, hP, hPdvd, hPle, hPrem⟩ :=
              ih (Nat.lcm f period) zeros p hn (by omega) h hp
            exact ⟨P, hP, hdvd.trans hPdvd, hle.trans hPle, hPrem⟩
  · intro n g ns m ms period zeros un f hm hconv hn _
    have hgcdpos : 0 < Nat.gcd f period := by
      have hf : 1 ≤ f := fcfc_den_pos m ns n un f hn hconv
      exact Nat.gcd_pos_of_pos_left period hf
    have hstep : find_period_loop n g ns (m :: ms) period zeros =
        (if g ^ Nat.lcm f period % n = 1 then some ((Nat.lcm f period : ℕ) : ℤ)
          else find_period_loop n g ns ms (Nat.lcm f period) zeros) := by
      rw [find_period_loop, if_neg hm, hconv]
      simp only []
      rw [if_neg (by omega), if_neg (by omega)]
      rfl
    constructor
    · intro hrem
      rw [hstep, if_pos hrem]
    · intro hrem
      rw [hstep, if_neg hrem]

/-- `gcd(n, ·)` only depends on the argument modulo `n`. -/
theorem int_gcd_congr_mod (n x y : ℤ) (h : n ∣ y - x) : Int.gcd n y = Int.gcd n x := by
  have key : ∀ u v : ℤ, n ∣ v - u → (Int.gcd n v : ℤ) ∣ Int.gcd n u := by
    intro u v hvu
    obtain ⟨c, hc⟩ := hvu
    have hdn : (Int.gcd n v : ℤ) ∣ n := Int.gcd_dvd_left
    have hdv : (Int.gcd n v : ℤ) ∣ v := Int.gcd_dvd_right
    have hdu : (Int.gcd n v : ℤ) ∣ u := by
      have : u = v - n * c := by rw [← hc]; ring
      rw [this]
      exact dvd_sub hdv (hdn.mul_right c)
    exact Int.dvd_gcd hdn hdu
  have h1 := key x y h
  have h2 := key y x (by obtain ⟨c, hc⟩ := h; exact ⟨-c, by rw [← neg_sub, hc]; ring⟩)
  exact Nat.dvd_antisymm (Int.natCast_dvd_natCast.mp h1) (Int.natCast_dvd_natCast.mp h2)

/-! ## Shor classical factoring driver (`Forest/ForestNonOracles/shor_tests.py`) -/

/-- One iteration of the guess loop of `run_shor` from `shor_tests.py`, for a
given `guess`, with the period reported for it by the (quantum) period finder
passed in as `period`.  `none` is any of the `continue` branches (guess
sharing a factor with `n`, failed period search, odd period, degenerate
factor terms, or a failed sanity check); `some (a, b)` is the accepted factor
pair.  The factor terms are computed over `ℤ` because `factor_term_base - 1`
can be `-1` in Python (when `pow` returns 0). -/
def run_shor_guess (number_to_factor guess : ℕ) (period : ℤ) : Option (ℤ × ℤ) :=
  if Nat.gcd number_to_factor guess ≠ 1 then none
  else if period = -1 then none
  else if period.fmod 2 = 1 then none
  else
    let factor_term_base : ℤ := (guess : ℤ) ^ (period.fdiv 2).toNat % number_to_factor
    if factor_term_base = 1 ∨ factor_term_base = (number_to_factor : ℤ) - 1 then none
    else
      let factor_a : ℤ := Int.gcd (number_to_factor : ℤ) (factor_term_base + 1)
      let factor_b : ℤ := Int.gcd (number_to_factor : ℤ) (factor_term_base - 1)
      if factor_a < 2 ∨ factor_a > (number_to_factor : ℤ) then none
      else if factor_b < 2 ∨ factor_b > (number_to_factor : ℤ) then none
      else if factor_a * factor_b ≠ (number_to_factor : ℤ) then none
      else some (factor_a, factor_b)

/-- The guess loop of `run_shor` over the remaining guesses; `periods` maps
each guess to the period the quantum period finder reports for it. -/
def run_shor_loop (number_to_factor : ℕ) (periods : ℕ → ℤ) : List ℕ → ℤ × ℤ
  | [] => (-1, -1)
  | guess :: rest =>
    match run_shor_guess number_to_factor guess (periods guess) with
    | some (a, b) => (a, b)
    | none => run_shor_loop number_to_factor periods rest

/-- `run_shor` from `shor_tests.py`: even numbers return `(2, n/2)`
immediately; otherwise guesses `3, 4, ..., n-1` are tried in order and
`(-1, -1)` is the "no factors found" sentinel. -/
def run_shor (number_to_factor : ℕ) (periods : ℕ → ℤ) : ℤ × ℤ :=
  if number_to_factor % 2 = 0 then (2, (number_to_factor / 2 : ℕ))
  else run_shor_loop number_to_factor periods
    (List.range' 3 (number_to_factor - 3))

/-- C4: whenever a guess is accepted, the two factors are exactly
`gcd(N, guess^(period/2) + 1)` and `gcd(N, guess^(period/2) - 1)`, both lie
in `[2, N)`, and their product is `N`; and whenever any check fails for a
guess (`none`), the outer loop just moves on to the next guess. -/
theorem run_shor_guess_spec :
    (∀ (n guess : ℕ) (period : ℤ) (fa fb : ℤ),
        run_shor_guess n guess period = some (fa, fb) →
        fa = Int.gcd (n : ℤ) ((guess : ℤ) ^ (period.fdiv 2).toNat + 1) ∧
        fb = Int.gcd (n : ℤ) ((guess : ℤ) ^ (period.fdiv 2).toNat - 1) ∧
        2 ≤ fa ∧ fa < (n : ℤ) ∧ 2 ≤ fb ∧ fb < (n : ℤ) ∧ fa * fb = (n : ℤ)) ∧
      (∀ (n : ℕ) (periods : ℕ → ℤ) (guess : ℕ) (rest : List ℕ),
        run_shor_guess n guess (periods guess) = none →
        run_shor_loop n periods (guess :: rest) = run_shor_loop n periods rest) := by
  constructor
  · intro n guess period fa fb h
    unfold run_shor_guess at h
    by_cases h1 : Nat.gcd n guess ≠ 1
    · rw [if_pos h1] at h; simp at h
    rw [if_neg h1] at h
    by_cases h2 : period = -1
    · rw [if_pos h2] at h; simp at h
    rw [if_neg h2] at h
    by_cases h3 : period.fmod 2 = 1
    · rw [if_pos h3] at h; simp at h
    rw [if_neg h3] at h
    set base : ℤ := (guess : ℤ) ^ (period.fdiv 2).toNat % (n : ℤ) with hbase
    by_cases h4 : base = 1 ∨ base = (n : ℤ) - 1
    · rw [if_pos h4] at h; simp at h
    rw [if_neg h4] at h
    set ga : ℤ := (Int.gcd (n : ℤ) (base + 1) : ℤ) with hga
    set gb : ℤ := (Int.gcd (n : ℤ) (base - 1) : ℤ) with hgb
    by_cases h5 : ga < 2 ∨ ga > (n : ℤ)
    · rw [if_pos h5] at h; simp at h
    rw [if_neg h5] at h
    by_cases h6 : gb < 2 ∨ gb > (n : ℤ)
    · rw [if_pos h6] at h; simp at h
    rw [if_neg h6] at h
    by_cases h7 : ga * gb ≠ (n : ℤ)
    · rw [if_pos h7] at h; simp at h
    rw [if_neg h7] at h
    have hfa : fa = ga := (congrArg Prod.fst (Option.some.inj h)).symm
    have hfb : fb = gb := (congrArg Prod.snd (Option.some.inj h)).symm
    push_neg at h5 h6 h7
    have hmod_a : Int.gcd (n : ℤ) (base + 1)
        = Int.gcd (n : ℤ) ((guess : ℤ) ^ (period.fdiv 2).toNat + 1) := by
      apply int_gcd_congr_mod
      have harith : base + 1 - ((guess : ℤ) ^ (period.fdiv 2).toNat + 1)
          = (n : ℤ) * (-((guess : ℤ) ^ (period.fdiv 2).toNat / (n : ℤ))) := by
        rw [hbase, Int.emod_def]
        ring
      rw [harith]
      exact Dvd.intro _ rfl
    have hmod_b : Int.gcd (n : ℤ) (base - 1)
        = Int.gcd (n : ℤ) ((guess : ℤ) ^ (period.fdiv 2).toNat - 1) := by
      apply int_gcd_congr_mod
      have harith : base - 1 - ((guess : ℤ) ^ (period.fdiv 2).toNat - 1)
          = (n : ℤ) * (-((guess : ℤ) ^ (period.fdiv 2).toNat / (n : ℤ))) := by
        rw [hbase, Int.emod_def]
        ring
      rw [harith]
      exact Dvd.intro _ rfl
    have hga2 : 2 ≤ ga := h5.1
    have hgb2 : 2 ≤ gb := h6.1
    have hprod : ga * gb = (n : ℤ) := h7
    have hlt_a : ga < (n : ℤ) := by
      have hstep : ga * 2 ≤ ga * gb := by
        apply mul_le_mul_of_nonneg_left hgb2
        omega
      rw [hprod] at hstep
      omega
    have hlt_b : gb < (n : ℤ) := by
      have hstep : gb * 2 ≤ gb * ga := by
        apply mul_le_mul_of_nonneg_left hga2
        omega
      rw [mul_comm gb ga, hprod] at hstep
      omega
    refine ⟨?_, ?_, ?_, ?_, ?_, ?_, ?_⟩
    · rw [hfa, hga, hmod_a]
    · rw [hfb, hgb, hmod_b]
    · omega
    · omega
    · omega
    · omega
    · rw [hfa, hfb]; exact hprod
  · intro n periods guess rest h
    rw [run_shor_loop, h]

/-- Witness for C4: guess 4 for `N = 15` with period 2 is accepted with
factors `(5, 3)`; guess 3 (gcd 3 with 15) is skipped and the loop moves on. -/
theorem run_shor_guess_spec_witness :
    ((5 : ℤ) = Int.gcd (15 : ℤ) ((4 : ℤ) ^ ((2 : ℤ).fdiv 2).toNat + 1) ∧
      (3 : ℤ) = Int.gcd (15 : ℤ) ((4 : ℤ) ^ ((2 : ℤ).fdiv 2).toNat - 1) ∧
      2 ≤ (5 : ℤ) ∧ (5 : ℤ) < (15 : ℤ) ∧ 2 ≤ (3 : ℤ) ∧ (3 : ℤ) < (15 : ℤ) ∧
      (5 : ℤ) * 3 = (15 : ℤ)) ∧
      run_shor_loop 15 (fun _ => 4) (3 :: [4]) = run_shor_loop 15 (fun _ => 4) [4] :=
  ⟨run_shor_guess_spec.1 15 4 2 5 3 (by decide),
    run_shor_guess_spec.2 15 (fun _ => 4) 3 [4] (by decide)⟩

/-- Witness for C9: on the trace `[512, 171]` for `number_to_factor = 21`,
`guess = 11`, `N = 1024` the loop finds period 6 (= lcm(6, 2)); and the
single-step form is exercised at `m = 512` (convergent denominator 2). -/
theorem find_period_lcm_monotone_finalize_witness :
    (∃ P : ℕ, (6 : ℤ) = (P : ℤ) ∧ 1 ∣ P ∧ 1 ≤ P ∧ 11 ^ P % 21 = 1) ∧
      (¬11 ^ Nat.lcm 2 1 % 21 = 1 →
        find_period_loop 21 11 1024 (512 :: [171]) 1 0 =
          find_period_loop 21 11 1024 [171] (Nat.lcm 2 1) 0) :=
  ⟨find_period_lcm_monotone_finalize.1 21 11 1024 [512, 171] 1 0 6
      (by decide) (by decide) (by decide) (by decide),
    (find_period_lcm_monotone_finalize.2 21 11 1024 512 [171] 1 0 1 2
      (by decide) (by decide) (by decide) (by decide)).2⟩

/-! ## GF(2) linear algebra (`Forest/ForestOracles/Simon/matrix_math.py`)

Matrices are `List (List Bool)` exactly as in the Python (lists of rows of
booleans); in-place mutation becomes returning the new matrix.  Out-of-range
element reads, which would raise `IndexError` in Python, read as `False`
(`getD`); every use below stays in range for matrices of uniform row width. -/

/-- `find_pivot_row` from `matrix_math.py`: index of the first row at or
after `start_row` with a set entry in `column`; `none` is Python's -1. -/
def find_pivot_row : List (List Bool) → ℕ → ℕ → Option ℕ
  | [], _, _ => none
  | row :: rest, column, 0 =>
    if row.getD column false then some 0
    else
      match find_pivot_row rest column 0 with
      | none => none
      | some p => some (p + 1)
  | _ :: rest, column, start_row + 1 =>
    match find_pivot_row rest column start_row with
    | none => none
    | some p => some (p + 1)

/-- `swap_rows` from `matrix_math.py`. -/
def swap_rows (matrix : List (List Bool)) (first_row_index second_row_index : ℕ) :
    List (List Bool) :=
  let first_row := matrix.getD first_row_index []
  (matrix.set first_row_index (matrix.getD second_row_index [])).set
    second_row_index first_row

/-- The inner loop of `reduce_rows`: XOR `source` into `target` at the
positions `start_column, ..., len(source) - 1`, leaving other positions of
`target` unchanged. -/
def xor_from : ℕ → List Bool → List Bool → List Bool
  | _, [], target => target
  | 0, s :: ss, t :: ts => xor t s :: xor_from 0 ss ts
  | 0, _ :: _, [] => []
  | start + 1, _ :: ss, t :: ts => t :: xor_from start ss ts
  | _ + 1, _ :: _, [] => []

/-- Row-indexed traversal for `reduce_rows`. -/
def reduce_rows_go (source_row : List Bool) (source_row_index start_column : ℕ) :
    ℕ → List (List Bool) → List (List Bool)
  | _, [] => []
  | i, target_row :: rest =>
    (if source_row_index < i ∧ target_row.getD start_column false then
        xor_from start_column source_row target_row
      else target_row) ::
      reduce_rows_go source_row source_row_index start_column (i + 1) rest

/-- `reduce_rows` from `matrix_math.py`: XOR the source row into every later
row that has a set entry in `start_column`, from that column rightwards. -/
def reduce_rows (matrix : List (List Bool)) (source_row_index start_column : ℕ) :
    List (List Bool) :=
  reduce_rows_go (matrix.getD source_row_index []) source_row_index start_column 0 matrix

/-- The column loop of `convert_to_reduced_row_echelon_form`. -/
def rref_loop (height : ℕ) : List ℕ → List (List Bool) → ℕ → List (List Bool)
  | [], matrix, _ => matrix
  | column_index :: cols, matrix, current_row =>
    match find_pivot_row matrix column_index current_row with
    | none => rref_loop height cols matrix current_row
    | some pivot_row =>
      let matrix1 :=
        if pivot_row > current_row then swap_rows matrix pivot_row current_row
        else matrix
      let matrix2 := reduce_rows matrix1 current_row column_index
      if current_row + 1 = height then matrix2
      else rref_loop height cols matrix2 (current_row + 1)

/-- `convert_to_reduced_row_echelon_form` from `matrix_math.py` (mod-2
forward Gaussian elimination; the Python raises `IndexError` on an empty
matrix, which is never passed — here the empty matrix maps to itself). -/
def convert_to_reduced_row_echelon_form (matrix : List (List Bool)) : List (List Bool) :=
  match matrix with
  | [] => []
  | row0 :: _ => rref_loop matrix.length (List.range row0.length) matrix 0

/-- `check_linear_independence` from `matrix_math.py`: append the candidate,
re-reduce, test whether the last row became all-zero; drop it again if so.
Mutation of the caller's matrix becomes the first component of the result. -/
def check_linear_independence (candidate : List Bool) (matrix : List (List Bool)) :
    List (List Bool) × Bool :=
  let matrix1 := convert_to_reduced_row_echelon_form (matrix ++ [candidate])
  let last_row := matrix1.getLast?
  match last_row with
  | none => (matrix1, false)
  | some row =>
    let is_linearly_independent := row.any (fun element => element)
    if is_linearly_independent then (matrix1, true)
    else (matrix1.dropLast, false)

/-- The scan of `complete_matrix` for the first row index whose diagonal
entry is 0 (defaulting to the number of rows). -/
def find_missing_row_index : ℕ → List (List Bool) → ℕ
  | i, [] => i
  | i, row :: rest =>
    if row.getD i false then find_missing_row_index (i + 1) rest else i

/-- `complete_matrix` from `matrix_math.py`: insert the missing unit row at
the first index whose diagonal entry is 0 (or at the bottom) and return it
(as the right-hand-side vector).  Result: (new matrix, returned row). -/
def complete_matrix (matrix : List (List Bool)) : List (List Bool) × List Bool :=
  let missing_row_index := find_missing_row_index 0 matrix
  let missing_row := (List.replicate (matrix.getD 0 []).length false).set
    missing_row_index true
  (matrix.insertIdx missing_row_index missing_row, missing_row)

/-- `solve_matrix` from `matrix_math.py`: back substitution from the last
row up, XOR-ing in already-solved entries for set columns right of the
diagonal. -/
def solve_matrix (matrix : List (List Bool)) (right_hand_side : List Bool) : List Bool :=
  (List.range matrix.length).reverse.foldl
    (fun secret_string row_index =>
      let row := matrix.getD row_index []
      let value := (List.range row.length).foldl
        (fun acc column_index =>
          if row_index + 1 ≤ column_index ∧ row.getD column_index false then
            xor acc (secret_string.getD column_index false)
          else acc)
        (right_hand_side.getD row_index false)
      secret_string.set row_index value)
    (List.replicate matrix.length false)

/-- Entry `(i, j)` of a matrix (out-of-range reads as `false`). -/
def entry (m : List (List Bool)) (i j : ℕ) : Bool :=
  (m.getD i []).getD j false

/-- All rows have width `w`. -/
def UniformWidth (w : ℕ) (m : List (List Bool)) : Prop :=
  ∀ row ∈ m, row.length = w

theorem getD_mem (m : List (List Bool)) (k : ℕ) (hk : k < m.length) :
    m.getD k [] ∈ m := by
  rw [List.getD_eq_getElem?_getD, List.getElem?_eq_getElem hk]
  exact List.getElem_mem hk

theorem entry_out_of_range (m : List (List Bool)) (i j : ℕ) (h : m.length ≤ i) :
    entry m i j = false := by
  unfold entry
  rw [List.getD_eq_default _ _ h]
  rfl

theorem find_pivot_row_some (m : List (List Bool)) (c : ℕ) :
    ∀ s p, find_pivot_row m c s = some p →
      s ≤ p ∧ p < m.length ∧ entry m p c = true ∧
        ∀ j, s ≤ j → j < p → entry m j c = false := by
  induction m with
  | nil => intro s p h; simp [find_pivot_row] at h
  | cons row rest ih =>
    intro s p h
    match s with
    | 0 =>
      rw [find_pivot_row] at h
      by_cases hrow : row.getD c false
      · rw [if_pos hrow] at h
        have hp : p = 0 := (Option.some.inj h).symm
        subst hp
        exact ⟨le_rfl, by simp, hrow, fun j h1 h2 => absurd h2 (by omega)⟩
      · rw [if_neg hrow] at h
        rcases hrec : find_pivot_row rest c 0 with _ | p'
        · rw [hrec] at h; simp at h
        · rw [hrec] at h
          have hp : p = p' + 1 := (Option.some.inj h).symm
          subst hp
          obtain ⟨_, hlen, hent, hbefore⟩ := ih 0 p' hrec
          refine ⟨Nat.zero_le _, by simp; omega, hent, ?_⟩
          intro j _ hj
          match j with
          | 0 => simpa [entry] using hrow
          | j' + 1 => exact hbefore j' (Nat.zero_le _) (by omega)
    | s' + 1 =>
      rw [find_pivot_row] at h
      rcases hrec : find_pivot_row rest c s' with _ | p'
      · rw [hrec] at h; simp at h
      · rw [hrec] at h
        have hp : p = p' + 1 := (Option.some.inj h).symm
        subst hp
        obtain ⟨hle, hlen, hent, hbefore⟩ := ih s' p' hrec
        refine ⟨by omega, by simp; omega, hent, ?_⟩
        intro j h1 h2
        match j with
        | 0 => omega
        | j' + 1 => exact hbefore j' (by omega) (by omega)

theorem find_pivot_row_none (m : List (List Bool)) (c : ℕ) :
    ∀ s, find_pivot_row m c s = none →
      ∀ j, s ≤ j → j < m.length → entry m j c = false := by
  induction m with
  | nil => intro s _ j _ hj; simp at hj
  | cons row rest ih =>
    intro s h j h1 h2
    match s with
    | 0 =>
      rw [find_pivot_row] at h
      by_cases hrow : row.getD c false
      · rw [if_pos hrow] at h; simp at h
      · rw [if_neg hrow] at h
        rcases hrec : find_pivot_row rest c 0 with _ | p'
        · match j with
          | 0 => simpa [entry] using hrow
          | j' + 1 => exact ih 0 hrec j' (Nat.zero_le _) (by simpa using h2)
        · rw [hrec] at h; simp at h
    | s' + 1 =>
      rw [find_pivot_row] at h
      rcases hrec : find_pivot_row rest c s' with _ | p'
      · match j with
        | 0 => omega
        | j' + 1 => exact ih s' hrec j' (by omega) (by simpa using h2)
      · rw [hrec] at h; simp at h

theorem swap_rows_length (m : List (List Bool)) (i j : ℕ) :
    (swap_rows m i j).length = m.length := by
  simp [swap_rows]

theorem swap_rows_getD (m : List (List Bool)) (i j k : ℕ)
    (hi : i < m.length) (hj : j < m.length) :
    (swap_rows m i j).getD k [] =
      if k = j then m.getD i []
      else if k = i then m.getD j []
      else m.getD k [] := by
  unfold swap_rows
  simp only [List.getD_eq_getElem?_getD]
  by_cases hkj : k = j
  · subst hkj
    rw [if_pos rfl]
    rw [List.getElem?_set]
    simp [hj]
  · rw [if_neg hkj]
    rw [List.getElem?_set, if_neg (fun hh => hkj hh.symm)]
    by_cases hki : k = i
    · subst hki
      rw [if_pos rfl, List.getElem?_set]
      simp [hi]
    · rw [if_neg hki, List.getElem?_set, if_neg (fun hh => hki hh.symm)]

theorem swap_rows_mem (m : List (List Bool)) (i j : ℕ)
    (hi : i < m.length) (hj : j < m.length) :
    ∀ row, row ∈ swap_rows m i j ↔ row ∈ m := by
  intro row
  constructor
  · intro h
    obtain ⟨k, hk, hkeq⟩ := List.mem_iff_getElem.mp h
    have hk' : k < m.length := by rw [swap_rows_length] at hk; exact hk
    have : (swap_rows m i j).getD k [] = row := by
      rw [List.getD_eq_getElem?_getD, List.getElem?_eq_getElem hk, hkeq]
      rfl
    rw [swap_rows_getD m i j k hi hj] at this
    by_cases hkj : k = j
    · rw [if_pos hkj] at this; rw [← this]; exact getD_mem m i hi
    · rw [if_neg hkj] at this
      by_cases hki : k = i
      · rw [if_pos hki] at this; rw [← this]; exact getD_mem m j hj
      · rw [if_neg hki] at this; rw [← this]; exact getD_mem m k hk'
  · intro h
    obtain ⟨k, hk, hkeq⟩ := List.mem_iff_getElem.mp h
    have hgd : m.getD k [] = row := by
      rw [List.getD_eq_getElem?_getD, List.getElem?_eq_getElem hk, hkeq]
      rfl
    by_cases hki : k = i
    · subst hki
      have : (swap_rows m k j).getD j [] = row := by
        rw [swap_rows_getD m k j j hk hj, if_pos rfl, hgd]
      rw [← this]
      exact getD_mem _ j (by rw [swap_rows_length]; exact hj)
    · by_cases hkj : k = j
      · subst hkj
        have hik : ¬i = k := fun hh => hki hh.symm
        have : (swap_rows m i k).getD i [] = row := by
          rw [swap_rows_getD m i k i hi hk, if_neg hik, if_pos rfl, hgd]
        rw [← this]
        exact getD_mem _ i (by rw [swap_rows_length]; exact hi)
      · have : (swap_rows m i j).getD k [] = row := by
          rw [swap_rows_getD m i j k hi hj, if_neg hkj, if_neg hki, hgd]
        rw [← this]
        exact getD_mem _ k (by rw [swap_rows_length]; exact hk)

theorem xor_from_length : ∀ (start : ℕ) (src tgt : List Bool),
    (xor_from start src tgt).length = tgt.length := by
  intro start src
  induction src generalizing start with
  | nil => intro tgt; cases start <;> rfl
  | cons s ss ih =>
    intro tgt
    match start, tgt with
    | 0, [] => rfl
    | 0, t :: ts => simpa [xor_from] using ih 0 ts
    | st + 1, [] => rfl
    | st + 1, t :: ts => simpa [xor_from] using ih st ts

theorem xor_from_getD : ∀ (start : ℕ) (src tgt : List Bool) (c : ℕ),
    (xor_from start src tgt).getD c false =
      if start ≤ c ∧ c < src.length ∧ c < tgt.length then
        xor (tgt.getD c false) (src.getD c false)
      else tgt.getD c false := by
  intro start src
  induction src generalizing start with
  | nil =>
    intro tgt c
    rw [if_neg (by intro hcontra; simp at hcontra)]
    cases start <;> rfl
  | cons s ss ih =>
    intro tgt c
    match start, tgt, c with
    | 0, [], c =>
      rw [if_neg (by intro hcontra; simp at hcontra)]
      rfl
    | 0, t :: ts, 0 =>
      rw [if_pos (by refine ⟨le_rfl, by simp, by simp⟩)]
      rfl
    | 0, t :: ts, c + 1 =>
      show (xor_from 0 ss ts).getD c false = _
      rw [ih 0 ts c]
      by_cases hcond : 0 ≤ c ∧ c < ss.length ∧ c < ts.length
      · rw [if_pos hcond, if_pos (by simp; omega)]
        rfl
      · rw [if_neg hcond, if_neg (by simp; simp at hcond; omega)]
        rfl
    | st + 1, [], c =>
      rw [if_neg (by intro hcontra; simp at hcontra)]
      rfl
    | st + 1, t :: ts, 0 =>
      rw [if_neg (by intro hcontra; omega)]
      rfl
    | st + 1, t :: ts, c + 1 =>
      show (xor_from st ss ts).getD c false = _
      rw [ih st ts c]
      by_cases hcond : st ≤ c ∧ c < ss.length ∧ c < ts.length
      · rw [if_pos hcond, if_pos (by simp; omega)]
        rfl
      · rw [if_neg hcond, if_neg (by simp; simp at hcond; omega)]
        rfl

theorem reduce_rows_go_length (src : List Bool) (s c : ℕ) :
    ∀ (l : List (List Bool)) (i : ℕ), (reduce_rows_go src s c i l).length = l.length := by
  intro l
  induction l with
  | nil => intro i; rfl
  | cons row rest ih => intro i; simpa [reduce_rows_go] using ih (i + 1)

theorem reduce_rows_go_getD (src : List Bool) (s c : ℕ) :
    ∀ (l : List (List Bool)) (i k : ℕ), k < l.length →
      (reduce_rows_go src s c i l).getD k [] =
        if s < i + k ∧ (l.getD k []).getD c false then
          xor_from c src (l.getD k [])
        else l.getD k [] := by
  intro l
  induction l with
  | nil => intro i k hk; simp at hk
  | cons row rest ih =>
    intro i k hk
    match k with
    | 0 =>
      show (if s < i ∧ row.getD c false then xor_from c src row else row) = _
      simp only [List.getD_cons_zero, Nat.add_zero]
    | k' + 1 =>
      show (reduce_rows_go src s c (i + 1) rest).getD k' [] = _
      rw [ih (i + 1) k' (by simpa using hk)]
      have harith : i + 1 + k' = i + (k' + 1) := by omega
      rw [harith]
      rfl

theorem reduce_rows_length (m : List (List Bool)) (s c : ℕ) :
    (reduce_rows m s c).length = m.length :=
  reduce_rows_go_length _ s c m 0

theorem reduce_rows_getD (m : List (List Bool)) (s c k : ℕ) (hk : k < m.length) :
    (reduce_rows m s c).getD k [] =
      if s < k ∧ entry m k c then xor_from c (m.getD s []) (m.getD k [])
      else m.getD k [] := by
  unfold reduce_rows
  rw [reduce_rows_go_getD _ s c m 0 k hk, Nat.zero_add]
  rfl

theorem reduce_rows_getD_le (m : List (List Bool)) (s c k : ℕ)
    (hk : k < m.length) (hks : k ≤ s) :
    (reduce_rows m s c).getD k [] = m.getD k [] := by
  rw [reduce_rows_getD m s c k hk, if_neg (by intro hcontra; omega)]

/-- If no row strictly below the source has a set entry in the start column,
`reduce_rows` is the identity. -/
theorem reduce_rows_eq_self (m : List (List Bool)) (s c : ℕ)
    (h : ∀ j, s < j → j < m.length → entry m j c = false) :
    reduce_rows m s c = m := by
  apply List.ext_getElem (reduce_rows_length m s c)
  intro k hk1 hk2
  have hgd : (reduce_rows m s c).getD k [] = m.getD k [] := by
    rw [reduce_rows_getD m s c k hk2]
    by_cases hks : s < k
    · rw [if_neg (by rw [h k hks hk2]; simp)]
    · rw [if_neg (by intro hcontra; omega)]
  rw [List.getD_eq_getElem?_getD, List.getD_eq_getElem?_getD,
    List.getElem?_eq_getElem hk1, List.getElem?_eq_getElem hk2] at hgd
  simpa using hgd

theorem mem_getD (m : List (List Bool)) (row : List Bool) :
    row ∈ m ↔ ∃ k, k < m.length ∧ m.getD k [] = row := by
  rw [List.mem_iff_getElem]
  constructor
  · rintro ⟨k, hk, hkeq⟩
    refine ⟨k, hk, ?_⟩
    rw [List.getD_eq_getElem?_getD, List.getElem?_eq_getElem hk, hkeq]
    rfl
  · rintro ⟨k, hk, hkeq⟩
    refine ⟨k, hk, ?_⟩
    rw [List.getD_eq_getElem?_getD, List.getElem?_eq_getElem hk] at hkeq
    exact hkeq

theorem uniformWidth_swap (w : ℕ) (m : List (List Bool)) (i j : ℕ)
    (hi : i < m.length) (hj : j < m.length) (hw : UniformWidth w m) :
    UniformWidth w (swap_rows m i j) := fun row hrow =>
  hw row ((swap_rows_mem m i j hi hj row).mp hrow)

theorem uniformWidth_reduce (w : ℕ) (m : List (List Bool)) (s c : ℕ)
    (hw : UniformWidth w m) : UniformWidth w (reduce_rows m s c) := by
  intro row hrow
  obtain ⟨k, hk, hkeq⟩ := (mem_getD _ row).mp hrow
  rw [reduce_rows_length] at hk
  rw [reduce_rows_getD m s c k hk] at hkeq
  by_cases hcond : s < k ∧ entry m k c
  · rw [if_pos hcond] at hkeq
    rw [← hkeq, xor_from_length]
    exact hw _ (getD_mem m k hk)
  · rw [if_neg hcond] at hkeq
    rw [← hkeq]
    exact hw _ (getD_mem m k hk)

/-! ### The GF(2) vector view of bit-string rows -/

/-- A row as a vector in `(ZMod 2)^w`. -/
def toVec (w : ℕ) (row : List Bool) : Fin w → ZMod 2 :=
  fun j => if row.getD j false then 1 else 0

/-- The set of row vectors of a matrix. -/
def rowSet (w : ℕ) (m : List (List Bool)) : Set (Fin w → ZMod 2) :=
  toVec w '' {r | r ∈ m}

/-- The GF(2) row space of a matrix. -/
def rowSpan (w : ℕ) (m : List (List Bool)) : Submodule (ZMod 2) (Fin w → ZMod 2) :=
  Submodule.span (ZMod 2) (rowSet w m)

theorem toVec_mem_rowSet (w : ℕ) {m : List (List Bool)} {row : List Bool}
    (h : row ∈ m) : toVec w row ∈ rowSet w m :=
  Set.mem_image_of_mem _ h

theorem vec_add_self (w : ℕ) (v : Fin w → ZMod 2) : v + v = 0 := by
  funext j
  show v j + v j = 0
  exact CharTwo.add_self_eq_zero (v j)

/-- When the source row is zero before `start`, the partial XOR is vector
addition. -/
theorem toVec_xor_from (w start : ℕ) (src tgt : List Bool)
    (hsrc : ∀ col, col < start → src.getD col false = false)
    (hs : src.length = w) (ht : tgt.length = w) :
    toVec w (xor_from start src tgt) = toVec w tgt + toVec w src := by
  funext j
  have hj : (j : ℕ) < w := j.isLt
  by_cases hstart : start ≤ (j : ℕ)
  · have hval : (xor_from start src tgt).getD j false
        = xor (tgt.getD j false) (src.getD j false) := by
      rw [xor_from_getD, if_pos]
      exact ⟨hstart, by omega, by omega⟩
    show toVec w (xor_from start src tgt) j = toVec w tgt j + toVec w src j
    unfold toVec
    rw [hval]
    cases htgt : tgt.getD j false <;> cases hsrcj : src.getD j false <;> decide
  · have hval : (xor_from start src tgt).getD j false = tgt.getD j false := by
      rw [xor_from_getD, if_neg]
      intro hcontra
      exact hstart hcontra.1
    show toVec w (xor_from start src tgt) j = toVec w tgt j + toVec w src j
    unfold toVec
    rw [hval, hsrc j (by omega)]
    simp

theorem rowSet_swap (w : ℕ) (m : List (List Bool)) (i j : ℕ)
    (hi : i < m.length) (hj : j < m.length) :
    rowSet w (swap_rows m i j) = rowSet w m := by
  unfold rowSet
  have : {r | r ∈ swap_rows m i j} = {r | r ∈ m} :=
    Set.ext fun r => swap_rows_mem m i j hi hj r
  rw [this]

theorem rowSpan_swap (w : ℕ) (m : List (List Bool)) (i j : ℕ)
    (hi : i < m.length) (hj : j < m.length) :
    rowSpan w (swap_rows m i j) = rowSpan w m := by
  unfold rowSpan
  rw [rowSet_swap w m i j hi hj]

theorem rowSpan_reduce (w : ℕ) (m : List (List Bool)) (s c : ℕ)
    (hs : s < m.length) (hw : UniformWidth w m)
    (hsrc0 : ∀ col, col < c → (m.getD s []).getD col false = false) :
    rowSpan w (reduce_rows m s c) = rowSpan w m := by
  have hsrc_len : (m.getD s []).length = w := hw _ (getD_mem m s hs)
  have hs' : s < (reduce_rows m s c).length := by rw [reduce_rows_length]; exact hs
  have hsame_s : (reduce_rows m s c).getD s [] = m.getD s [] :=
    reduce_rows_getD_le m s c s hs le_rfl
  apply le_antisymm
  · rw [rowSpan, Submodule.span_le]
    rintro v ⟨row, hrow, rfl⟩
    obtain ⟨k, hk, hkeq⟩ := (mem_getD _ row).mp hrow
    rw [reduce_rows_length] at hk
    rw [reduce_rows_getD m s c k hk] at hkeq
    by_cases hcond : s < k ∧ entry m k c
    · rw [if_pos hcond] at hkeq
      rw [← hkeq]
      rw [toVec_xor_from w c (m.getD s []) (m.getD k []) hsrc0 hsrc_len
        (hw _ (getD_mem m k hk))]
      exact Submodule.add_mem _
        (Submodule.subset_span (toVec_mem_rowSet w (getD_mem m k hk)))
        (Submodule.subset_span (toVec_mem_rowSet w (getD_mem m s hs)))
    · rw [if_neg hcond] at hkeq
      rw [← hkeq]
      exact Submodule.subset_span (toVec_mem_rowSet w (getD_mem m k hk))
  · rw [rowSpan, Submodule.span_le]
    rintro v ⟨row, hrow, rfl⟩
    obtain ⟨k, hk, hkeq⟩ := (mem_getD _ row).mp hrow
    by_cases hcond : s < k ∧ entry m k c
    · have hnew : (reduce_rows m s c).getD k [] =
          xor_from c (m.getD s []) (m.getD k []) := by
        rw [reduce_rows_getD m s c k hk, if_pos hcond]
      have hveq : toVec w ((reduce_rows m s c).getD k []) =
          toVec w (m.getD k []) + toVec w (m.getD s []) := by
        rw [hnew]
        exact toVec_xor_from w c (m.getD s []) (m.getD k []) hsrc0 hsrc_len
          (hw _ (getD_mem m k hk))
      have hrecover : toVec w (m.getD k []) =
          toVec w ((reduce_rows m s c).getD k []) + toVec w (m.getD s []) := by
        rw [hveq, add_assoc, vec_add_self, add_zero]
      rw [← hkeq, hrecover]
      have hk' : k < (reduce_rows m s c).length := by
        rw [reduce_rows_length]; exact hk
      refine Submodule.add_mem _
        (Submodule.subset_span (toVec_mem_rowSet w (getD_mem _ k hk')))
        ?_
      rw [← hsame_s]
      exact Submodule.subset_span (toVec_mem_rowSet w (getD_mem _ s hs'))
    · have hnew : (reduce_rows m s c).getD k [] = m.getD k [] := by
        rw [reduce_rows_getD m s c k hk, if_neg hcond]
      rw [← hkeq, ← hnew]
      have hk' : k < (reduce_rows m s c).length := by
        rw [reduce_rows_length]; exact hk
      exact Submodule.subset_span (toVec_mem_rowSet w (getD_mem _ k hk'))

/-! ### The echelon invariant of the forward elimination -/

/-- Row `i` has its pivot in column `p`: the entry is set, every entry to the
left is clear, and the column is clear below row `i`. -/
def PivotAt (m : List (List Bool)) (i p : ℕ) : Prop :=
  entry m i p = true ∧ (∀ col, col < p → entry m i col = false) ∧
    (∀ j, i < j → j < m.length → entry m j p = false)

/-- Invariant of `rref_loop` before processing column `c`: the rows
`0 .. qs.length - 1` have been pivoted at the strictly increasing columns
`qs` (all left of `c`), and every remaining row is clear in all columns left
of `c`. -/
def PivotState (m : List (List Bool)) (qs : List ℕ) (c : ℕ) : Prop :=
  List.Chain' (· < ·) qs ∧ (∀ q ∈ qs, q < c) ∧
    (∀ i, i < qs.length → PivotAt m i (qs.getD i 0)) ∧
    (∀ i, qs.length ≤ i → i < m.length → ∀ col, col < c → entry m i col = false)

theorem chain'_lt_getD (qs : List ℕ) (h : List.Chain' (· < ·) qs) :
    ∀ i j, i < j → j < qs.length → qs.getD i 0 < qs.getD j 0 := by
  intro i j hij hj
  have hp : List.Pairwise (· < ·) qs := List.chain'_iff_pairwise.mp h
  have hi : i < qs.length := by omega
  have := List.pairwise_iff_get.mp hp ⟨i, hi⟩ ⟨j, hj⟩ hij
  rw [List.getD_eq_getElem qs 0 hi, List.getD_eq_getElem qs 0 hj]
  simpa using this

theorem pivotState_length_le (m : List (List Bool)) (qs : List ℕ) (c : ℕ)
    (h : PivotState m qs c) : qs.length ≤ m.length := by
  by_contra hcontra
  push_neg at hcontra
  have hm : m.length < qs.length := hcontra
  have := (h.2.2.1 m.length hm).1
  rw [entry_out_of_range m m.length _ le_rfl] at this
  simp at this

/-- One pivoting step of the elimination (conditional swap followed by
`reduce_rows`) preserves length, width and row space, and extends the pivot
invariant by the new pivot column `c`. -/
theorem pivot_step (m : List (List Bool)) (qs : List ℕ) (c w p : ℕ)
    (hcw : c < w) (hw : UniformWidth w m) (hst : PivotState m qs c)
    (hp : find_pivot_row m c qs.length = some p) :
    (reduce_rows (if p > qs.length then swap_rows m p qs.length else m)
        qs.length c).length = m.length ∧
      UniformWidth w (reduce_rows
        (if p > qs.length then swap_rows m p qs.length else m) qs.length c) ∧
      rowSpan w (reduce_rows
        (if p > qs.length then swap_rows m p qs.length else m) qs.length c) =
        rowSpan w m ∧
      PivotState (reduce_rows
        (if p > qs.length then swap_rows m p qs.length else m) qs.length c)
        (qs ++ [c]) (c + 1) := by
  obtain ⟨hrp, hplen, hentp, hbet⟩ := find_pivot_row_some m c qs.length p hp
  set r := qs.length with hr
  have hrlen : r < m.length := by omega
  set m1 := if p > r then swap_rows m p r else m with hm1def
  set m2 := reduce_rows m1 r c with hm2def
  obtain ⟨hchain, hqlt, hpivots, hB⟩ := hst
  -- Facts about the (possibly skipped) swap
  have hm1len : m1.length = m.length := by
    rw [hm1def]
    by_cases hpr : p > r
    · rw [if_pos hpr]; exact swap_rows_length m p r
    · rw [if_neg hpr]
  have hm1w : UniformWidth w m1 := by
    rw [hm1def]
    by_cases hpr : p > r
    · rw [if_pos hpr]; exact uniformWidth_swap w m p r hplen hrlen hw
    · rw [if_neg hpr]; exact hw
  have hm1span : rowSpan w m1 = rowSpan w m := by
    rw [hm1def]
    by_cases hpr : p > r
    · rw [if_pos hpr]; exact rowSpan_swap w m p r hplen hrlen
    · rw [if_neg hpr]
  have hm1_lt : ∀ i, i < r → m1.getD i [] = m.getD i [] := by
    intro i hi
    rw [hm1def]
    by_cases hpr : p > r
    · rw [if_pos hpr, swap_rows_getD m p r i hplen hrlen,
        if_neg (by omega), if_neg (by omega)]
    · rw [if_neg hpr]
  have hm1_r : m1.getD r [] = m.getD p [] := by
    rw [hm1def]
    by_cases hpr : p > r
    · rw [if_pos hpr, swap_rows_getD m p r r hplen hrlen, if_pos rfl]
    · rw [if_neg hpr]
      have : p = r := by omega
      rw [this]
  have hm1_ge : ∀ j, r ≤ j → j < m.length →
      ∃ j', r ≤ j' ∧ j' < m.length ∧ m1.getD j [] = m.getD j' [] := by
    intro j hj hjlen
    rw [hm1def]
    by_cases hpr : p > r
    · rw [if_pos hpr, swap_rows_getD m p r j hplen hrlen]
      by_cases hjr : j = r
      · rw [if_pos hjr]; exact ⟨p, hrp, hplen, rfl⟩
      · rw [if_neg hjr]
        by_cases hjp : j = p
        · rw [if_pos hjp]; exact ⟨r, le_rfl, hrlen, rfl⟩
        · rw [if_neg hjp]; exact ⟨j, hj, hjlen, rfl⟩
    · rw [if_neg hpr]; exact ⟨j, hj, hjlen, rfl⟩
  have hm1B : ∀ i, r ≤ i → i < m1.length → ∀ col, col < c → entry m1 i col = false := by
    intro i hi hilen col hcol
    obtain ⟨j', hj1, hj2, hj3⟩ := hm1_ge i hi (by omega)
    show (m1.getD i []).getD col false = false
    rw [hj3]
    exact hB j' hj1 hj2 col hcol
  have hm1rc : entry m1 r c = true := by
    show (m1.getD r []).getD c false = true
    rw [hm1_r]
    exact hentp
  have hm1_pivots : ∀ i, i < r → PivotAt m1 i (qs.getD i 0) := by
    intro i hi
    obtain ⟨hP1, hP2, hP3⟩ := hpivots i hi
    refine ⟨?_, ?_, ?_⟩
    · show (m1.getD i []).getD _ false = true
      rw [hm1_lt i hi]
      exact hP1
    · intro col hcol
      show (m1.getD i []).getD col false = false
      rw [hm1_lt i hi]
      exact hP2 col hcol
    · intro j hij hjlen
      rw [hm1len] at hjlen
      by_cases hjr : j < r
      · show (m1.getD j []).getD _ false = false
        rw [hm1_lt j hjr]
        exact hP3 j hij hjlen
      · obtain ⟨j', hj1, hj2, hj3⟩ := hm1_ge j (by omega) hjlen
        show (m1.getD j []).getD _ false = false
        rw [hj3]
        exact hP3 j' (by omega) hj2
  -- Facts about the reduction
  have hsrc_len : (m1.getD r []).length = w :=
    hm1w _ (getD_mem m1 r (by omega))
  have hsrc0 : ∀ col, col < c → (m1.getD r []).getD col false = false := by
    intro col hcol
    exact hm1B r le_rfl (by omega) col hcol
  have hm2len : m2.length = m.length := by
    rw [hm2def, reduce_rows_length, hm1len]
  have hm2w : UniformWidth w m2 := uniformWidth_reduce w m1 r c hm1w
  have hm2span : rowSpan w m2 = rowSpan w m := by
    rw [hm2def, rowSpan_reduce w m1 r c (by omega) hm1w hsrc0, hm1span]
  have hm2_le : ∀ i, i ≤ r → m2.getD i [] = m1.getD i [] := by
    intro i hi
    exact reduce_rows_getD_le m1 r c i (by omega) hi
  have hm2_ge : ∀ j, r < j → j < m.length →
      (m2.getD j [] = m1.getD j [] ∧ entry m1 j c = false) ∨
        (m2.getD j [] = xor_from c (m1.getD r []) (m1.getD j []) ∧
          entry m1 j c = true) := by
    intro j hj hjlen
    rw [hm2def, reduce_rows_getD m1 r c j (by omega)]
    by_cases hcond : entry m1 j c
    · right
      rw [if_pos ⟨hj, hcond⟩]
      exact ⟨rfl, hcond⟩
    · left
      rw [if_neg (by intro hcontra; exact hcond hcontra.2)]
      exact ⟨rfl, by simpa using hcond⟩
  have htgt_len : ∀ j, j < m.length → (m1.getD j []).length = w := by
    intro j hjlen
    exact hm1w _ (getD_mem m1 j (by omega))
  have hm2_col_c : ∀ j, r < j → j < m.length → entry m2 j c = false := by
    intro j hj hjlen
    rcases hm2_ge j hj hjlen with ⟨heq, hfalse⟩ | ⟨heq, htrue⟩
    · show (m2.getD j []).getD c false = false
      rw [heq]
      exact hfalse
    · show (m2.getD j []).getD c false = false
      rw [heq, xor_from_getD, if_pos ⟨le_rfl, by omega, by rw [htgt_len j hjlen]; omega⟩]
      have h1 : (m1.getD j []).getD c false = true := htrue
      have h2 : (m1.getD r []).getD c false = true := hm1rc
      rw [h1, h2]
      rfl
  have hm2_cols_lt : ∀ j, r < j → j < m.length →
      ∀ col, col < c → entry m2 j col = false := by
    intro j hj hjlen col hcol
    rcases hm2_ge j hj hjlen with ⟨heq, _⟩ | ⟨heq, _⟩
    · show (m2.getD j []).getD col false = false
      rw [heq]
      exact hm1B j (by omega) (by omega) col hcol
    · show (m2.getD j []).getD col false = false
      rw [heq, xor_from_getD, if_neg (by intro hcontra; omega)]
      exact hm1B j (by omega) (by omega) col hcol
  have hqsmem : ∀ i, i < qs.length → qs.getD i 0 ∈ qs := by
    intro i hi
    rw [List.getD_eq_getElem qs 0 hi]
    exact List.getElem_mem hi
  have hm2_pivots_old : ∀ i, i < r → PivotAt m2 i (qs.getD i 0) := by
    intro i hi
    obtain ⟨hP1, hP2, hP3⟩ := hm1_pivots i hi
    have hqi : qs.getD i 0 < c := hqlt _ (hqsmem i hi)
    refine ⟨?_, ?_, ?_⟩
    · show (m2.getD i []).getD _ false = true
      rw [hm2_le i (by omega)]
      exact hP1
    · intro col hcol
      show (m2.getD i []).getD col false = false
      rw [hm2_le i (by omega)]
      exact hP2 col hcol
    · intro j hij hjlen
      rw [hm2len] at hjlen
      by_cases hjr : j ≤ r
      · show (m2.getD j []).getD _ false = false
        rw [hm2_le j hjr]
        exact hP3 j hij (by omega)
      · rcases hm2_ge j (by omega) hjlen with ⟨heq, _⟩ | ⟨heq, _⟩
        · show (m2.getD j []).getD _ false = false
          rw [heq]
          exact hP3 j hij (by omega)
        · show (m2.getD j []).getD _ false = false
          rw [heq, xor_from_getD, if_neg (by intro hcontra; omega)]
          exact hP3 j hij (by omega)
  have hm2_pivot_new : PivotAt m2 r c := by
    refine ⟨?_, ?_, ?_⟩
    · show (m2.getD r []).getD c false = true
      rw [hm2_le r le_rfl]
      exact hm1rc
    · intro col hcol
      show (m2.getD r []).getD col false = false
      rw [hm2_le r le_rfl]
      exact hsrc0 col hcol
    · intro j hij hjlen
      rw [hm2len] at hjlen
      exact hm2_col_c j hij hjlen
  refine ⟨hm2len, hm2w, hm2span, ?_, ?_, ?_, ?_⟩
  · -- the extended pivot columns are still strictly increasing
    rw [List.chain'_iff_pairwise, List.pairwise_append]
    refine ⟨List.chain'_iff_pairwise.mp hchain, List.pairwise_singleton _ _, ?_⟩
    intro a ha b hb
    rw [List.mem_singleton.mp hb]
    exact hqlt a ha
  · intro q hq
    rcases List.mem_append.mp hq with hq1 | hq2
    · have := hqlt q hq1
      omega
    · rw [List.mem_singleton.mp hq2]
      omega
  · intro i hi
    rw [List.length_append, List.length_singleton] at hi
    by_cases hir : i < r
    · rw [List.getD_append qs [c] 0 i hir]
      exact hm2_pivots_old i hir
    · have hieq : i = r := by omega
      rw [List.getD_append_right qs [c] 0 i (by omega)]
      have hzero : i - qs.length = 0 := by omega
      rw [hzero]
      rw [hieq]
      exact hm2_pivot_new
  · intro i hi hilen col hcol
    rw [List.length_append, List.length_singleton] at hi
    rw [hm2len] at hilen
    by_cases hcolc : col < c
    · exact hm2_cols_lt i (by omega) hilen col hcolc
    · have : col = c := by omega
      subst this
      exact hm2_col_c i (by omega) hilen

/-- Step equation for `rref_loop` when no pivot exists in the head column. -/
theorem rref_loop_cons_none (height c : ℕ) (cols : List ℕ) (m : List (List Bool))
    (r : ℕ) (hp : find_pivot_row m c r = none) :
    rref_loop height (c :: cols) m r = rref_loop height cols m r := by
  rw [rref_loop, hp]

/-- Step equation for `rref_loop` when the head column has a pivot. -/
theorem rref_loop_cons_some (height c : ℕ) (cols : List ℕ) (m : List (List Bool))
    (r p : ℕ) (hp : find_pivot_row m c r = some p) :
    rref_loop height (c :: cols) m r =
      if r + 1 = height then
        reduce_rows (if p > r then swap_rows m p r else m) r c
      else
        rref_loop height cols
          (reduce_rows (if p > r then swap_rows m p r else m) r c) (r + 1) := by
  rw [rref_loop, hp]

/-- Master invariant of the elimination loop: running `rref_loop` over the
remaining columns preserves length, width and row space and rebuilds the
pivot invariant over the full width. -/
theorem rref_loop_master : ∀ (k c : ℕ) (m : List (List Bool)) (qs : List ℕ) (w : ℕ),
    c + k = w → UniformWidth w m → PivotState m qs c →
    ∃ qs',
      (rref_loop m.length (List.range' c k) m qs.length).length = m.length ∧
      UniformWidth w (rref_loop m.length (List.range' c k) m qs.length) ∧
      rowSpan w (rref_loop m.length (List.range' c k) m qs.length) = rowSpan w m ∧
      PivotState (rref_loop m.length (List.range' c k) m qs.length) qs' w := by
  intro k
  induction k with
  | zero =>
    intro c m qs w hcw hw hst
    refine ⟨qs, rfl, hw, rfl, ?_⟩
    have hc : c = w := by omega
    rw [← hc]
    exact hst
  | succ k ih =>
    intro c m qs w hcw hw hst
    have hcols : List.range' c (k + 1) = c :: List.range' (c + 1) k := rfl
    rw [hcols]
    rcases hp : find_pivot_row m c qs.length with _ | p
    · -- no pivot in this column: it is skipped
      rw [rref_loop_cons_none m.length c _ m qs.length hp]
      have hnone := find_pivot_row_none m c qs.length hp
      have hst' : PivotState m qs (c + 1) := by
        obtain ⟨hchain, hqlt, hpivots, hB⟩ := hst
        refine ⟨hchain, fun q hq => by have := hqlt q hq; omega, hpivots, ?_⟩
        intro i hi hilen col hcol
        by_cases hcolc : col < c
        · exact hB i hi hilen col hcolc
        · have : col = c := by omega
          subst this
          exact hnone i hi hilen
      exact ih (c + 1) m qs w (by omega) hw hst'
    · -- pivot found: swap it up, reduce below, move to the next row
      rw [rref_loop_cons_some m.length c _ m qs.length p hp]
      obtain ⟨hm2len, hm2w, hm2span, hm2st⟩ :=
        pivot_step m qs c w p (by omega) hw hst hp
      set m2 := reduce_rows (if p > qs.length then swap_rows m p qs.length else m)
        qs.length c with hm2def
      by_cases hdone : qs.length + 1 = m.length
      · rw [if_pos hdone]
        refine ⟨qs ++ [c], hm2len, hm2w, hm2span, ?_⟩
        obtain ⟨hchain, hqlt, hpivots, hB⟩ := hm2st
        refine ⟨hchain, fun q hq => by have := hqlt q hq; omega, hpivots, ?_⟩
        intro i hi hilen
        rw [List.length_append, List.length_singleton] at hi
        rw [hm2len] at hilen
        omega
      · rw [if_neg hdone]
        have hq1len : (qs ++ [c]).length = qs.length + 1 := by
          rw [List.length_append, List.length_singleton]
        obtain ⟨qs', h1, h2, h3, h4⟩ :=
          ih (c + 1) m2 (qs ++ [c]) w (by omega) hm2w hm2st
        rw [hq1len, hm2len] at h1 h2 h3 h4
        refine ⟨qs', h1, h2, h3.trans hm2span, h4⟩

/-- `convert_to_reduced_row_echelon_form` on a nonempty uniform-width matrix:
same number of rows, same widths, same row space, and the result is in
echelon form (witnessed by its pivot column list). -/
theorem rref_spec (m : List (List Bool)) (w : ℕ) (hm : m ≠ [])
    (hw : UniformWidth w m) :
    ∃ qs,
      (convert_to_reduced_row_echelon_form m).length = m.length ∧
      UniformWidth w (convert_to_reduced_row_echelon_form m) ∧
      rowSpan w (convert_to_reduced_row_echelon_form m) = rowSpan w m ∧
      PivotState (convert_to_reduced_row_echelon_form m) qs w := by
  match m with
  | [] => exact absurd rfl hm
  | row0 :: rest =>
    have hw0 : row0.length = w := hw row0 (List.mem_cons_self _ _)
    have hrange : List.range row0.length = List.range' 0 w := by
      rw [hw0, List.range_eq_range']
    have hrref : convert_to_reduced_row_echelon_form (row0 :: rest) =
        rref_loop (row0 :: rest).length (List.range' 0 w) (row0 :: rest) 0 := by
      rw [convert_to_reduced_row_echelon_form, hrange]
    have hst : PivotState (row0 :: rest) [] 0 := by
      refine ⟨List.chain'_nil, by simp, by simp, ?_⟩
      intro i _ _ col hcol
      omega
    obtain ⟨qs, h1, h2, h3, h4⟩ :=
      rref_loop_master w 0 (row0 :: rest) [] w (by omega) hw hst
    rw [hrref]
    exact ⟨qs, h1, h2, h3, h4⟩

/-- Strictly increasing pivot columns grow at least as fast as row indices. -/
theorem pivot_getD_ge (qs : List ℕ) (h : List.Chain' (· < ·) qs) :
    ∀ i, i < qs.length → i ≤ qs.getD i 0 := by
  intro i
  induction i with
  | zero => intro _; omega
  | succ i ihh =>
    intro hi
    have h1 := ihh (by omega)
    have h2 := chain'_lt_getD qs h i (i + 1) (by omega) hi
    omega

/-- Pivoted rows are not all-zero. -/
theorem pivotState_row_any (m : List (List Bool)) (qs : List ℕ) (w : ℕ)
    (hst : PivotState m qs w) (i : ℕ) (hi : i < qs.length) :
    (m.getD i []).any (fun element => element) = true := by
  obtain ⟨hP1, _, _⟩ := hst.2.2.1 i hi
  have hq : (m.getD i []).getD (qs.getD i 0) false = true := hP1
  have hlt : qs.getD i 0 < (m.getD i []).length := by
    by_contra hcontra
    push_neg at hcontra
    rw [List.getD_eq_default _ _ hcontra] at hq
    simp at hq
  rw [List.any_eq_true]
  refine ⟨true, ?_, rfl⟩
  rw [List.getD_eq_getElem _ _ hlt] at hq
  rw [← hq]
  exact List.getElem_mem hlt

/-- Rows below all pivots are all-zero. -/
theorem pivotState_row_zero (m : List (List Bool)) (qs : List ℕ) (w : ℕ)
    (hst : PivotState m qs w) (hw : UniformWidth w m) (i : ℕ)
    (hi1 : qs.length ≤ i) (hi2 : i < m.length) :
    (m.getD i []).any (fun element => element) = false := by
  rw [List.any_eq_false]
  intro x hx
  obtain ⟨col, hcol, hcoleq⟩ := List.mem_iff_getElem.mp hx
  have hwid : (m.getD i []).length = w := hw _ (getD_mem m i hi2)
  have : entry m i col = false := hst.2.2.2 i hi1 hi2 col (by omega)
  have hgd : (m.getD i []).getD col false = false := this
  rw [List.getD_eq_getElem _ _ hcol] at hgd
  rw [← hcoleq, hgd]
  simp

/-- An all-zero row reads as the zero vector. -/
theorem toVec_zero_row (w : ℕ) (row : List Bool)
    (h : row.any (fun element => element) = false) : toVec w row = 0 := by
  funext j
  unfold toVec
  rw [List.any_eq_false] at h
  by_cases hj : (j : ℕ) < row.length
  · have hmem : row.getD (j : ℕ) false ∈ row := by
      rw [List.getD_eq_getElem _ _ hj]
      exact List.getElem_mem hj
    have hfalse := h _ hmem
    cases hb : row.getD (j : ℕ) false
    · rfl
    · rw [hb] at hfalse
      exact absurd rfl hfalse
  · push_neg at hj
    rw [List.getD_eq_default _ _ hj]
    rfl

theorem rowSet_append (w : ℕ) (l1 l2 : List (List Bool)) :
    rowSet w (l1 ++ l2) = rowSet w l1 ∪ rowSet w l2 := by
  unfold rowSet
  rw [← Set.image_union]
  have : {r : List Bool | r ∈ l1 ++ l2} = {r | r ∈ l1} ∪ {r | r ∈ l2} := by
    ext r
    simp [List.mem_append]
  rw [this]

theorem rowSet_eq_range (w : ℕ) (L : List (List Bool)) :
    rowSet w L = Set.range (fun i : Fin L.length => toVec w (L.getD (i : ℕ) [])) := by
  ext x
  constructor
  · rintro ⟨row, hrow, rfl⟩
    obtain ⟨k, hk, hkeq⟩ := (mem_getD L row).mp hrow
    refine ⟨⟨k, hk⟩, ?_⟩
    show toVec w (L.getD k []) = toVec w row
    rw [hkeq]
  · rintro ⟨i, rfl⟩
    exact toVec_mem_rowSet w (getD_mem L i i.isLt)

theorem finrank_rowSpan_le (w : ℕ) (L : List (List Bool)) :
    Module.finrank (ZMod 2) (rowSpan w L) ≤ L.length := by
  rw [rowSpan, rowSet_eq_range]
  refine le_trans (finrank_span_le_card _) ?_
  rw [Set.toFinset_range]
  refine le_trans (Finset.card_image_le) ?_
  simp

/-- The rows of a fully pivoted echelon matrix are linearly independent over
GF(2): at the pivot column of the row with the smallest index carrying a
nonzero coefficient, every other row of the combination reads 0. -/
theorem pivotState_linearIndependent (m : List (List Bool)) (qs : List ℕ) (w : ℕ)
    (hst : PivotState m qs w) (hfull : qs.length = m.length) :
    LinearIndependent (ZMod 2)
      (fun i : Fin m.length => toVec w (m.getD (i : ℕ) [])) := by
  rw [linearIndependent_iff']
  intro s g hsum i hi
  by_contra hgne
  classical
  set F := s.filter (fun j => g j ≠ 0) with hF
  have hFne : F.Nonempty := ⟨i, Finset.mem_filter.mpr ⟨hi, hgne⟩⟩
  set i0 := F.min' hFne with hi0
  have hi0F : i0 ∈ F := F.min'_mem hFne
  have hi0s : i0 ∈ s := (Finset.mem_filter.mp hi0F).1
  have hgi0 : g i0 ≠ 0 := (Finset.mem_filter.mp hi0F).2
  have hi0len : (i0 : ℕ) < qs.length := by rw [hfull]; exact i0.isLt
  obtain ⟨hP1, hP2, hP3⟩ := hst.2.2.1 (i0 : ℕ) hi0len
  have hqw : qs.getD (i0 : ℕ) 0 < w := by
    refine hst.2.1 _ ?_
    rw [List.getD_eq_getElem qs 0 hi0len]
    exact List.getElem_mem hi0len
  have h0 : (∑ j ∈ s, g j • toVec w (m.getD (j : ℕ) []))
      ⟨qs.getD (i0 : ℕ) 0, hqw⟩ = 0 := by
    rw [hsum]
    rfl
  rw [Finset.sum_apply] at h0
  have hterm : ∀ j ∈ s, j ≠ i0 →
      (g j • toVec w (m.getD (j : ℕ) [])) ⟨qs.getD (i0 : ℕ) 0, hqw⟩ = 0 := by
    intro j hjs hjne
    by_cases hgj : g j = 0
    · rw [Pi.smul_apply, hgj, zero_smul]
    · have hjF : j ∈ F := Finset.mem_filter.mpr ⟨hjs, hgj⟩
      have hle : i0 ≤ j := F.min'_le j hjF
      have hlt : (i0 : ℕ) < (j : ℕ) := by
        rcases lt_or_eq_of_le hle with hlt' | heq'
        · exact hlt'
        · exact absurd heq'.symm hjne
      have hent : entry m (j : ℕ) (qs.getD (i0 : ℕ) 0) = false :=
        hP3 (j : ℕ) hlt j.isLt
      have hvec : toVec w (m.getD (j : ℕ) []) ⟨qs.getD (i0 : ℕ) 0, hqw⟩ = 0 := by
        unfold toVec
        have : (m.getD (j : ℕ) []).getD (qs.getD (i0 : ℕ) 0) false = false := hent
        rw [this]
        rfl
      rw [Pi.smul_apply, hvec, smul_zero]
  rw [Finset.sum_eq_single_of_mem i0 hi0s hterm] at h0
  have hvec0 : toVec w (m.getD (i0 : ℕ) []) ⟨qs.getD (i0 : ℕ) 0, hqw⟩ = 1 := by
    unfold toVec
    have : (m.getD (i0 : ℕ) []).getD (qs.getD (i0 : ℕ) 0) false = true := hP1
    rw [this]
    rfl
  rw [Pi.smul_apply, hvec0, smul_eq_mul, mul_one] at h0
  exact hgi0 h0

/-- An echelon matrix has row-space rank at most its number of pivots. -/
theorem pivotState_finrank_le (m : List (List Bool)) (qs : List ℕ) (w : ℕ)
    (hst : PivotState m qs w) (hw : UniformWidth w m) :
    Module.finrank (ZMod 2) (rowSpan w m) ≤ qs.length := by
  set fam : Fin qs.length → (Fin w → ZMod 2) :=
    fun i => toVec w (m.getD (i : ℕ) []) with hfam
  have hsub : rowSet w m ⊆ ↑(Submodule.span (ZMod 2) (Set.range fam)) := by
    rintro x ⟨row, hrow, rfl⟩
    obtain ⟨k, hk, hkeq⟩ := (mem_getD m row).mp hrow
    by_cases hkq : k < qs.length
    · apply Submodule.subset_span
      refine ⟨⟨k, hkq⟩, ?_⟩
      show toVec w (m.getD k []) = toVec w row
      rw [hkeq]
    · have hzero := pivotState_row_zero m qs w hst hw k (by omega) hk
      have : toVec w row = 0 := by
        rw [← hkeq]
        exact toVec_zero_row w _ hzero
      rw [this]
      exact Submodule.zero_mem _
  have hle : rowSpan w m ≤ Submodule.span (ZMod 2) (Set.range fam) :=
    Submodule.span_le.mpr hsub
  refine le_trans (Submodule.finrank_mono hle) ?_
  refine le_trans (finrank_span_le_card _) ?_
  rw [Set.toFinset_range]
  refine le_trans (Finset.card_image_le) ?_
  simp

/-- `rowSet` as the range of the row family, for any stated length. -/
theorem rowSet_eq_range' (w : ℕ) (L : List (List Bool)) (n : ℕ) (hn : L.length = n) :
    rowSet w L = Set.range (fun i : Fin n => toVec w (L.getD (i : ℕ) [])) := by
  subst hn
  exact rowSet_eq_range w L

/-- C7 (amended): for a matrix of width-`w` rows and a width-`w` candidate,
`check_linear_independence` (i) grows the matrix by exactly one row when it
returns `True`, (ii) never leaves the matrix smaller than it started, and
(iii) — provided the matrix rows are linearly independent over GF(2), as the
Simon driver maintains — returns `True` exactly when the candidate is not in
the GF(2) span of the matrix rows. -/
theorem check_linear_independence_spec (w : ℕ) (matrix : List (List Bool))
    (candidate : List Bool) (hw : UniformWidth w matrix) (hc : candidate.length = w) :
    ((check_linear_independence candidate matrix).2 = true →
      (check_linear_independence candidate matrix).1.length = matrix.length + 1) ∧
    (matrix.length ≤ (check_linear_independence candidate matrix).1.length) ∧
    (LinearIndependent (ZMod 2)
        (fun i : Fin matrix.length => toVec w (matrix.getD (i : ℕ) [])) →
      ((check_linear_independence candidate matrix).2 = true ↔
        toVec w candidate ∉ rowSpan w matrix)) := by
  have hXne : matrix ++ [candidate] ≠ [] := by simp
  have hXw : UniformWidth w (matrix ++ [candidate]) := by
    intro row hrow
    rcases List.mem_append.mp hrow with h1 | h2
    · exact hw row h1
    · rw [List.mem_singleton.mp h2]
      exact hc
  obtain ⟨qs, hRlen, hRw, hRspan, hRst⟩ := rref_spec (matrix ++ [candidate]) w hXne hXw
  set R := convert_to_reduced_row_echelon_form (matrix ++ [candidate]) with hR
  have hXlen : (matrix ++ [candidate]).length = matrix.length + 1 := by simp
  have hRlen' : R.length = matrix.length + 1 := by rw [hRlen, hXlen]
  have hqs_le : qs.length ≤ R.length := pivotState_length_le R qs w hRst
  have hlast : R.getLast? = some (R.getD (R.length - 1) []) := by
    rw [List.getLast?_eq_getElem?, List.getElem?_eq_getElem (by omega),
      List.getD_eq_getElem R [] (by omega)]
  have hcheck : check_linear_independence candidate matrix =
      (if (R.getD (R.length - 1) []).any (fun element => element) then (R, true)
        else (R.dropLast, false)) := by
    show (match R.getLast? with
      | none => (R, false)
      | some row =>
        if row.any (fun element => element) then (R, true)
        else (R.dropLast, false)) = _
    rw [hlast]
  have hspanX : rowSpan w (matrix ++ [candidate]) =
      Submodule.span (ZMod 2) (insert (toVec w candidate) (rowSet w matrix)) := by
    rw [rowSpan, rowSet_append]
    have h1 : rowSet w [candidate] = {toVec w candidate} := by
      unfold rowSet
      have : {r : List Bool | r ∈ [candidate]} = {candidate} := by
        ext r
        simp
      rw [this, Set.image_singleton]
    rw [h1, Set.union_singleton]
  by_cases hfull : qs.length = R.length
  · -- independent: the appended row survived as a pivot row
    have hnz : (R.getD (R.length - 1) []).any (fun element => element) = true :=
      pivotState_row_any R qs w hRst (R.length - 1) (by omega)
    have hres : check_linear_independence candidate matrix = (R, true) := by
      rw [hcheck, if_pos hnz]
    refine ⟨?_, ?_, ?_⟩
    · intro _
      rw [hres]
      exact hRlen'
    · rw [hres]
      show matrix.length ≤ R.length
      omega
    · intro _
      rw [hres]
      refine iff_of_true rfl ?_
      intro hmem
      have hins : rowSpan w (matrix ++ [candidate]) = rowSpan w matrix := by
        rw [hspanX, Submodule.span_insert_eq_span hmem]
        rfl
      have hfamR := pivotState_linearIndependent R qs w hRst hfull
      have hrankR : Module.finrank (ZMod 2) (rowSpan w R) = matrix.length + 1 := by
        rw [rowSpan, rowSet_eq_range, finrank_span_eq_card hfamR]
        simp [hRlen']
      have hrankM : Module.finrank (ZMod 2) (rowSpan w matrix) ≤ matrix.length :=
        finrank_rowSpan_le w matrix
      rw [hRspan, hins] at hrankR
      omega
  · -- dependent: the appended row was eliminated to zero
    have hz : (R.getD (R.length - 1) []).any (fun element => element) = false :=
      pivotState_row_zero R qs w hRst hRw (R.length - 1) (by omega) (by omega)
    have hres : check_linear_independence candidate matrix = (R.dropLast, false) := by
      rw [hcheck, if_neg (by rw [hz]; simp)]
    refine ⟨?_, ?_, ?_⟩
    · intro habs
      rw [hres] at habs
      simp at habs
    · rw [hres]
      show matrix.length ≤ R.dropLast.length
      rw [List.length_dropLast]
      omega
    · intro hindep
      rw [hres]
      refine iff_of_false (by simp) ?_
      intro hnot
      exfalso
      have hsnoc : (fun i : Fin (matrix.length + 1) =>
          toVec w ((matrix ++ [candidate]).getD (i : ℕ) [])) =
          Fin.snoc (fun i : Fin matrix.length => toVec w (matrix.getD (i : ℕ) []))
            (toVec w candidate) := by
        funext i
        refine Fin.lastCases ?_ ?_ i
        · rw [Fin.snoc_last]
          show toVec w ((matrix ++ [candidate]).getD matrix.length []) = _
          rw [List.getD_append_right matrix [candidate] [] matrix.length le_rfl]
          simp
        · intro j
          rw [Fin.snoc_castSucc]
          show toVec w ((matrix ++ [candidate]).getD (j : ℕ) []) = _
          rw [List.getD_append matrix [candidate] [] (j : ℕ) j.isLt]
      have hnotrange : toVec w candidate ∉ Submodule.span (ZMod 2)
          (Set.range (fun i : Fin matrix.length => toVec w (matrix.getD (i : ℕ) []))) := by
        rw [← rowSet_eq_range]
        exact hnot
      have hindepX : LinearIndependent (ZMod 2)
          (fun i : Fin (matrix.length + 1) =>
            toVec w ((matrix ++ [candidate]).getD (i : ℕ) [])) := by
        rw [hsnoc]
        exact linearIndependent_fin_snoc.mpr ⟨hindep, hnotrange⟩
      have hrankX : Module.finrank (ZMod 2) (rowSpan w (matrix ++ [candidate])) =
          matrix.length + 1 := by
        rw [rowSpan, rowSet_eq_range' w (matrix ++ [candidate]) (matrix.length + 1) hXlen,
          finrank_span_eq_card hindepX]
        simp
      have hrankR : Module.finrank (ZMod 2) (rowSpan w R) ≤ qs.length :=
        pivotState_finrank_le R qs w hRst hRw
      rw [hRspan] at hrankR
      omega

/-- Witness for C7 (amended) on the empty matrix (trivially independent)
and candidate `[1, 0]` of width 2. -/
theorem check_linear_independence_spec_witness :
    UniformWidth 2 ([] : List (List Bool)) ∧ ([true, false] : List Bool).length = 2 ∧
      (((check_linear_independence [true, false] []).2 = true →
          (check_linear_independence [true, false] []).1.length =
            ([] : List (List Bool)).length + 1) ∧
        (([] : List (List Bool)).length ≤
          (check_linear_independence [true, false] []).1.length) ∧
        (LinearIndependent (ZMod 2)
            (fun i : Fin ([] : List (List Bool)).length =>
              toVec 2 (([] : List (List Bool)).getD (i : ℕ) [])) →
          ((check_linear_independence [true, false] []).2 = true ↔
            toVec 2 [true, false] ∉ rowSpan 2 ([] : List (List Bool))))) :=
  ⟨fun row h => absurd h (List.not_mem_nil row), by decide,
    check_linear_independence_spec 2 [] [true, false]
      (fun row h => absurd h (List.not_mem_nil row)) (by decide)⟩

/-- Counterexample to C7 as stated: with the (dependent-rowed) matrix
`[[1,0],[1,0]]` and candidate `[0,1]`, the candidate is linearly independent
of the rows already in the matrix, yet the function returns `False` (the
duplicate row, not the candidate, is eliminated to zero by the
re-reduction). -/
theorem check_linear_independence_dependent_cex :
    (check_linear_independence [false, true] [[true, false], [true, false]]).2 = false ∧
      toVec 2 [false, true] ∉ rowSpan 2 [[true, false], [true, false]] := by
  constructor
  · decide
  · intro hmem
    have hsub : rowSet 2 [[true, false], [true, false]] ⊆
        ↑(LinearMap.ker
          (LinearMap.proj 1 : (Fin 2 → ZMod 2) →ₗ[ZMod 2] ZMod 2)) := by
      rintro x ⟨row, hrow, rfl⟩
      have hrow' : row = [true, false] := by
        simp only [Set.mem_setOf_eq] at hrow
        rcases List.mem_cons.mp hrow with h | h
        · exact h
        · rcases List.mem_cons.mp h with h2 | h2
          · exact h2
          · simp at h2
      subst hrow'
      show toVec 2 [true, false] ∈ _
      rw [SetLike.mem_coe, LinearMap.mem_ker]
      rfl
    have hle := Submodule.span_le.mpr hsub
    have hker := hle hmem
    rw [LinearMap.mem_ker] at hker
    have hval : (LinearMap.proj 1 : (Fin 2 → ZMod 2) →ₗ[ZMod 2] ZMod 2)
        (toVec 2 [false, true]) = 1 := rfl
    rw [hval] at hker
    exact one_ne_zero hker

/-- `rref_loop` never changes the number of rows (no hypotheses needed). -/
theorem rref_loop_length (height : ℕ) : ∀ (cols : List ℕ) (m : List (List Bool)) (r : ℕ),
    (rref_loop height cols m r).length = m.length := by
  intro cols
  induction cols with
  | nil => intro m r; rfl
  | cons c rest ih =>
    intro m r
    rcases hp : find_pivot_row m c r with _ | p
    · rw [rref_loop_cons_none height c rest m r hp]
      exact ih m r
    · rw [rref_loop_cons_some height c rest m r p hp]
      by_cases hdone : r + 1 = height
      · rw [if_pos hdone, reduce_rows_length]
        by_cases hpr : p > r
        · rw [if_pos hpr, swap_rows_length]
        · rw [if_neg hpr]
      · rw [if_neg hdone, ih, reduce_rows_length]
        by_cases hpr : p > r
        · rw [if_pos hpr, swap_rows_length]
        · rw [if_neg hpr]

/-- `convert_to_reduced_row_echelon_form` never changes the number of rows. -/
theorem rref_length (m : List (List Bool)) :
    (convert_to_reduced_row_echelon_form m).length = m.length := by
  match m with
  | [] => rfl
  | row0 :: rest =>
    rw [convert_to_reduced_row_echelon_form]
    exact rref_loop_length _ _ _ _

/-- The exact row-count bookkeeping of `check_linear_independence`, with no
width hypotheses: one row gained on `True`, row count restored on `False`. -/
theorem check_linear_independence_length (matrix : List (List Bool))
    (candidate : List Bool) :
    ((check_linear_independence candidate matrix).2 = true ∧
        (check_linear_independence candidate matrix).1.length = matrix.length + 1) ∨
      ((check_linear_independence candidate matrix).2 = false ∧
        (check_linear_independence candidate matrix).1.length = matrix.length) := by
  set R := convert_to_reduced_row_echelon_form (matrix ++ [candidate]) with hR
  have hRlen : R.length = matrix.length + 1 := by
    rw [hR, rref_length]
    simp
  have hlast : R.getLast? = some (R.getD (R.length - 1) []) := by
    rw [List.getLast?_eq_getElem?, List.getElem?_eq_getElem (by omega),
      List.getD_eq_getElem R [] (by omega)]
  have hcheck : check_linear_independence candidate matrix =
      (if (R.getD (R.length - 1) []).any (fun element => element) then (R, true)
        else (R.dropLast, false)) := by
    show (match R.getLast? with
      | none => (R, false)
      | some row =>
        if row.any (fun element => element) then (R, true)
        else (R.dropLast, false)) = _
    rw [hlast]
  by_cases hany : (R.getD (R.length - 1) []).any (fun element => element) = true
  · left
    rw [hcheck, if_pos hany]
    exact ⟨rfl, hRlen⟩
  · right
    rw [hcheck, if_neg hany]
    refine ⟨rfl, ?_⟩
    show R.dropLast.length = matrix.length
    rw [List.length_dropLast]
    omega

/-- On a matrix satisfying the echelon invariant, the elimination loop makes
no change: every remaining column either has no pivot below the current row
or finds its pivot in place with nothing left to reduce. -/
theorem rref_loop_fix : ∀ (k c : ℕ) (m : List (List Bool)) (qs : List ℕ) (w r : ℕ),
    c + k = w → UniformWidth w m → PivotState m qs w → r ≤ qs.length →
    (∀ i, i < r → qs.getD i 0 < c) →
    (∀ i, r ≤ i → i < qs.length → c ≤ qs.getD i 0) →
    rref_loop m.length (List.range' c k) m r = m := by
  intro k
  induction k with
  | zero => intro c m qs w r _ _ _ _ _ _; rfl
  | succ k ih =>
    intro c m qs w r hcw hw hst hr hlo hhi
    obtain ⟨hchain, hqlt, hpivots, hB⟩ := hst
    have hqslen : qs.length ≤ m.length := pivotState_length_le m qs w ⟨hchain, hqlt, hpivots, hB⟩
    have hcols : List.range' c (k + 1) = c :: List.range' (c + 1) k := rfl
    rw [hcols]
    by_cases hrfull : r = qs.length
    · -- all pivot rows processed: every remaining row is all-zero
      rcases hp : find_pivot_row m c r with _ | p
      · rw [rref_loop_cons_none m.length c _ m r hp]
        exact ih (c + 1) m qs w r (by omega) hw ⟨hchain, hqlt, hpivots, hB⟩ hr
          (fun i hi => by have := hlo i hi; omega) (by omega)
      · exfalso
        obtain ⟨hrp, hplen, hentp, _⟩ := find_pivot_row_some m c r p hp
        have : entry m p c = false := hB p (by omega) hplen c (by omega)
        rw [hentp] at this
        simp at this
    · have hrlt : r < qs.length := by omega
      have hqr_ge : c ≤ qs.getD r 0 := hhi r le_rfl hrlt
      by_cases hqr : qs.getD r 0 = c
      · -- this column is exactly row r's pivot: pivot found in place, no work
        have hPr := hpivots r hrlt
        rw [hqr] at hPr
        obtain ⟨hP1, hP2, hP3⟩ := hPr
        have hp : find_pivot_row m c r = some r := by
          rcases hp' : find_pivot_row m c r with _ | p
          · exfalso
            have := find_pivot_row_none m c r hp' r le_rfl (by omega)
            rw [hP1] at this
            simp at this
          · obtain ⟨hrp, hplen, hentp, hbefore⟩ := find_pivot_row_some m c r p hp'
            by_cases hpr : r < p
            · exfalso
              have := hbefore r le_rfl hpr
              rw [hP1] at this
              simp at this
            · have : p = r := by omega
              rw [this]
        have hm1 : (if r > r then swap_rows m r r else m) = m := if_neg (lt_irrefl r)
        rw [rref_loop_cons_some m.length c _ m r r hp, hm1,
          reduce_rows_eq_self m r c hP3]
        by_cases hdone : r + 1 = m.length
        · rw [if_pos hdone]
        · rw [if_neg hdone]
          refine ih (c + 1) m qs w (r + 1) (by omega) hw ⟨hchain, hqlt, hpivots, hB⟩
            (by omega) ?_ ?_
          · intro i hi
            by_cases hir : i < r
            · have := hlo i hir
              omega
            · have : i = r := by omega
              rw [this, hqr]
              omega
          · intro i hi1 hi2
            have := chain'_lt_getD qs hchain r i (by omega) hi2
            omega
      · -- the pivot of row r lies strictly right of this column: skip it
        have hqr_gt : c < qs.getD r 0 := by omega
        rcases hp : find_pivot_row m c r with _ | p
        · rw [rref_loop_cons_none m.length c _ m r hp]
          refine ih (c + 1) m qs w r (by omega) hw ⟨hchain, hqlt, hpivots, hB⟩ hr
            (fun i hi => by have := hlo i hi; omega) ?_
          intro i hi1 hi2
          have hge := hhi i hi1 hi2
          by_cases hir : i = r
          · rw [hir]
            omega
          · have := chain'_lt_getD qs hchain r i (by omega) hi2
            omega
        · exfalso
          obtain ⟨hrp, hplen, hentp, _⟩ := find_pivot_row_some m c r p hp
          have hfalse : entry m p c = false := by
            by_cases hpq : p < qs.length
            · obtain ⟨_, hP2, _⟩ := hpivots p hpq
              refine hP2 c ?_
              by_cases hpr : p = r
              · rw [hpr]
                omega
              · have := chain'_lt_getD qs hchain r p (by omega) hpq
                have := hhi p (by omega) hpq
                omega
            · exact hB p (by omega) hplen c (by omega)
          rw [hentp] at hfalse
          simp at hfalse

/-- C8: mod-2 Gaussian elimination is idempotent on matrices of uniform row
width: applying `convert_to_reduced_row_echelon_form` twice gives the same
result as applying it once (equivalently, any matrix already in the form the
function produces is left unchanged by a second run). -/
theorem rref_idempotent (m : List (List Bool)) (w : ℕ) (hw : UniformWidth w m) :
    convert_to_reduced_row_echelon_form (convert_to_reduced_row_echelon_form m) =
      convert_to_reduced_row_echelon_form m := by
  match hm : m with
  | [] => rfl
  | row0 :: rest =>
    obtain ⟨qs, hRlen, hRw, _, hRst⟩ :=
      rref_spec (row0 :: rest) w (by simp) hw
    set R := convert_to_reduced_row_echelon_form (row0 :: rest) with hR
    have hRne : R ≠ [] := by
      intro hcontra
      rw [hcontra] at hRlen
      simp at hRlen
    obtain ⟨r0, R', hR2⟩ := List.exists_cons_of_ne_nil hRne
    rw [hR2] at hRst hRw ⊢
    have hr0w : r0.length = w := hRw r0 (List.mem_cons_self _ _)
    show convert_to_reduced_row_echelon_form (r0 :: R') = r0 :: R'
    rw [convert_to_reduced_row_echelon_form, hr0w, List.range_eq_range']
    exact rref_loop_fix w 0 (r0 :: R') qs w 0 (by omega) hRw hRst
      (by omega) (by omega) (by omega)

theorem insertIdx_getD_lt (l : List (List Bool)) (x : List Bool) (n k : ℕ)
    (hn : k < n) (hk : k < l.length) :
    (l.insertIdx n x).getD k [] = l.getD k [] := by
  have hlen : k < (l.insertIdx n x).length := by
    have := List.length_le_length_insertIdx l x n
    omega
  rw [List.getD_eq_getElem _ _ hlen, List.getD_eq_getElem _ _ hk]
  exact List.getElem_insertIdx_of_lt l x n k hn hk

theorem insertIdx_getD_self (l : List (List Bool)) (x : List Bool) (n : ℕ)
    (hn : n ≤ l.length) :
    (l.insertIdx n x).getD n [] = x := by
  have hlen : n < (l.insertIdx n x).length := by
    rw [List.length_insertIdx n l hn]
    omega
  rw [List.getD_eq_getElem _ _ hlen]
  exact List.getElem_insertIdx_self l x n hn

theorem insertIdx_getD_gt (l : List (List Bool)) (x : List Bool) (n k : ℕ)
    (hk : n + k < l.length) :
    (l.insertIdx n x).getD (n + k + 1) [] = l.getD (n + k) [] := by
  have hlen : n + k + 1 < (l.insertIdx n x).length := by
    rw [List.length_insertIdx n l (by omega)]
    omega
  rw [List.getD_eq_getElem _ _ hlen, List.getD_eq_getElem _ _ hk]
  exact List.getElem_insertIdx_add_succ l x n k hk

theorem set_replicate_getD (w idx j : ℕ) :
    ((List.replicate w false).set idx true).getD j false =
      if idx = j ∧ j < w then true else false := by
  rw [List.getD_eq_getElem?_getD, List.getElem?_set]
  by_cases hij : idx = j
  · rw [if_pos hij]
    rw [List.length_replicate]
    by_cases hlt : idx < w
    · rw [if_pos hlt, if_pos ⟨hij, by omega⟩]
      rfl
    · rw [if_neg hlt, if_neg (by intro hcontra; omega)]
      rfl
  · rw [if_neg hij, if_neg (by intro hcontra; exact hij hcontra.1)]
    rw [List.getElem?_replicate]
    by_cases hj : j < w
    · rw [if_pos hj]
      rfl
    · rw [if_neg hj]
      rfl

/-- Characterization of the diagonal scan of `complete_matrix`: it returns
the first row index (counting from `i0`) whose diagonal entry is clear, or
one past the end. -/
theorem find_missing_row_index_spec :
    ∀ (l : List (List Bool)) (i0 : ℕ),
      i0 ≤ find_missing_row_index i0 l ∧
      find_missing_row_index i0 l ≤ i0 + l.length ∧
      (∀ i, i0 ≤ i → i < find_missing_row_index i0 l →
        (l.getD (i - i0) []).getD i false = true) ∧
      (find_missing_row_index i0 l < i0 + l.length →
        (l.getD (find_missing_row_index i0 l - i0) []).getD
          (find_missing_row_index i0 l) false = false) := by
  intro l
  induction l with
  | nil =>
    intro i0
    refine ⟨le_rfl, by simp [find_missing_row_index], ?_, ?_⟩
    · intro i h1 h2
      rw [find_missing_row_index] at h2
      omega
    · intro h
      rw [find_missing_row_index] at h
      simp at h
  | cons row rest ih =>
    intro i0
    rw [find_missing_row_index]
    by_cases hcond : row.getD i0 false
    · rw [if_pos hcond]
      obtain ⟨ih1, ih2, ih3, ih4⟩ := ih (i0 + 1)
      refine ⟨by omega, by simp; omega, ?_, ?_⟩
      · intro i h1 h2
        by_cases hi : i = i0
        · subst hi
          have : i - i = 0 := by omega
          rw [this]
          exact hcond
        · have hi1 : i0 + 1 ≤ i := by omega
          have := ih3 i hi1 h2
          have harith : i - i0 = (i - (i0 + 1)) + 1 := by omega
          rw [harith]
          exact this
      · intro h
        have harith : find_missing_row_index (i0 + 1) rest - i0 =
            (find_missing_row_index (i0 + 1) rest - (i0 + 1)) + 1 := by omega
        rw [harith]
        refine ih4 ?_
        simp at h
        omega
    · rw [if_neg hcond]
      refine ⟨le_rfl, by omega, ?_, ?_⟩
      · intro i h1 h2
        omega
      · intro _
        have : i0 - i0 = 0 := by omega
        rw [this]
        simpa using hcond

/-- Pivot columns strictly increase at least as fast as indices. -/
theorem chain'_lt_getD_add (qs : List ℕ) (h : List.Chain' (· < ·) qs) :
    ∀ d i, i + d < qs.length → qs.getD i 0 + d ≤ qs.getD (i + d) 0 := by
  intro d
  induction d with
  | zero => intro i _; simp
  | succ d ihh =>
    intro i hd
    have h1 := ihh i (by omega)
    have h2 := chain'_lt_getD qs h (i + d) (i + d + 1) (by omega) (by omega)
    have harith : i + (d + 1) = i + d + 1 := by omega
    rw [harith]
    omega

/-- C10: for an (N-1) x N matrix in the echelon form the elimination
produces, with all rows pivoted (linearly independent), `complete_matrix`
inserts exactly one row — the unit vector with its single set entry at the
first index whose diagonal entry is clear, or at the bottom when the whole
diagonal is set — returns exactly that row, and afterwards every diagonal
entry of the completed N x N matrix is set (so back substitution reads every
secret entry off a pivot). -/
theorem complete_matrix_spec (m : List (List Bool)) (w : ℕ) (qs : List ℕ)
    (hm : 1 ≤ m.length) (hlen : m.length + 1 = w) (hw : UniformWidth w m)
    (hst : PivotState m qs w) (hfull : qs.length = m.length) :
    (complete_matrix m).1.length = m.length + 1 ∧
    (complete_matrix m).2 =
      (List.replicate w false).set (find_missing_row_index 0 m) true ∧
    (complete_matrix m).1 =
      m.insertIdx (find_missing_row_index 0 m) (complete_matrix m).2 ∧
    (∀ i, i < find_missing_row_index 0 m → entry m i i = true) ∧
    (find_missing_row_index 0 m < m.length →
      entry m (find_missing_row_index 0 m) (find_missing_row_index 0 m) = false) ∧
    (∀ i, i < w → entry (complete_matrix m).1 i i = true) := by
  obtain ⟨hchain, hqlt, hpivots, hB⟩ := hst
  set K := find_missing_row_index 0 m with hK
  obtain ⟨hK0, hKle, hKdiag, hKmiss⟩ := find_missing_row_index_spec m 0
  have hKle' : K ≤ m.length := by
    rw [hK]
    omega
  have hdiag_true : ∀ i, i < K → entry m i i = true := by
    intro i hi
    rw [hK] at hi
    have h := hKdiag i (Nat.zero_le i) hi
    have harith : i - 0 = i := rfl
    rw [harith] at h
    exact h
  have hdiag_false : K < m.length → entry m K K = false := by
    intro h
    rw [hK] at h
    have h2 := hKmiss (by omega)
    have harith : find_missing_row_index 0 m - 0 = find_missing_row_index 0 m := rfl
    rw [harith] at h2
    rw [hK]
    exact h2
  have hwid : (m.getD 0 []).length = w := hw _ (getD_mem m 0 (by omega))
  have hcm : complete_matrix m =
      (m.insertIdx K ((List.replicate w false).set K true),
        (List.replicate w false).set K true) := by
    show (m.insertIdx (find_missing_row_index 0 m)
        ((List.replicate (m.getD 0 []).length false).set
          (find_missing_row_index 0 m) true),
        (List.replicate (m.getD 0 []).length false).set
          (find_missing_row_index 0 m) true) = _
    rw [hwid, ← hK]
  have hq_ge : ∀ i, i < m.length → i ≤ qs.getD i 0 := fun i hi =>
    pivot_getD_ge qs hchain i (by omega)
  have hq_le : ∀ i, i < m.length → qs.getD i 0 ≤ i + 1 := by
    intro i hi
    have hlast : qs.getD i 0 + (qs.length - 1 - i) ≤
        qs.getD (i + (qs.length - 1 - i)) 0 :=
      chain'_lt_getD_add qs hchain (qs.length - 1 - i) i (by omega)
    have harith : i + (qs.length - 1 - i) = qs.length - 1 := by omega
    rw [harith] at hlast
    have hqlast : qs.getD (qs.length - 1) 0 < w := by
      refine hqlt _ ?_
      rw [List.getD_eq_getElem qs 0 (by omega)]
      exact List.getElem_mem (by omega)
    omega
  have hdiag_iff : ∀ i, i < m.length → (entry m i i = true ↔ qs.getD i 0 = i) := by
    intro i hi
    obtain ⟨hP1, hP2, _⟩ := hpivots i (by omega)
    constructor
    · intro hdiag
      by_contra hne
      have hgt : i < qs.getD i 0 := by
        have := hq_ge i hi
        omega
      have := hP2 i hgt
      rw [hdiag] at this
      simp at this
    · intro heq
      rw [heq] at hP1
      exact hP1
  have hqK' : ∀ i, K ≤ i → i < m.length → qs.getD i 0 = i + 1 := by
    intro i hKi hi
    have hKlt : K < m.length := by omega
    have hqKne : qs.getD K 0 ≠ K := by
      intro hcontra
      have := (hdiag_iff K hKlt).mpr hcontra
      rw [hdiag_false hKlt] at this
      simp at this
    have hqK1 : qs.getD K 0 = K + 1 := by
      have h1 := hq_ge K hKlt
      have h2 := hq_le K hKlt
      omega
    have hstep := chain'_lt_getD_add qs hchain (i - K) K (by omega)
    have harith : K + (i - K) = i := by omega
    rw [harith] at hstep
    have h2 := hq_le i hi
    omega
  refine ⟨?_, ?_, ?_, hdiag_true, hdiag_false, ?_⟩
  · rw [hcm]
    exact List.length_insertIdx K m hKle'
  · rw [hcm]
  · rw [hcm]
  · intro i hi
    rw [hcm]
    show ((m.insertIdx K ((List.replicate w false).set K true)).getD i []).getD
      i false = true
    by_cases hiK : i < K
    · rw [insertIdx_getD_lt m _ K i hiK (by omega)]
      exact hdiag_true i hiK
    · by_cases hiKeq : i = K
      · rw [hiKeq, insertIdx_getD_self m _ K hKle', set_replicate_getD,
          if_pos ⟨rfl, by omega⟩]
      · have hKi : K < i := by omega
        obtain ⟨k, hk⟩ : ∃ k, i = K + k + 1 := ⟨i - K - 1, by omega⟩
        have hboundk : K + k < m.length := by omega
        have hrow := insertIdx_getD_gt m ((List.replicate w false).set K true) K k hboundk
        rw [← hk] at hrow
        rw [hrow]
        have hq : qs.getD (K + k) 0 = i := by
          have := hqK' (K + k) (by omega) hboundk
          omega
        obtain ⟨hP1, _, _⟩ := hpivots (K + k) (by omega)
        rw [hq] at hP1
        exact hP1

/-- Witness for C10 on the 1 x 2 echelon matrix `[[1, 0]]` (pivot list
`[0]`): the unit row `[0, 1]` is appended at the bottom and the completed
2 x 2 matrix has a fully set diagonal. -/
theorem complete_matrix_spec_witness :
    PivotState [[true, false]] [0] 2 ∧
      ((complete_matrix [[true, false]]).1.length = 2 ∧
        (∀ i, i < 2 → entry (complete_matrix [[true, false]]).1 i i = true)) := by
  have hst : PivotState [[true, false]] [0] 2 := by
    refine ⟨List.chain'_singleton 0, by decide, ?_, ?_⟩
    · intro i hi
      have hi' : i < 1 := by simpa using hi
      have hi0 : i = 0 := by omega
      subst hi0
      refine ⟨by decide, ?_, ?_⟩
      · intro col hcol
        have hcol' : col < 0 := by simp at hcol
        exact absurd hcol' (by omega)
      · intro j h1 h2
        have h2' : j < 1 := by simpa using h2
        exact absurd h2' (by omega)
    · intro i h1 h2 col hcol
      have h1' : 1 ≤ i := by simpa using h1
      have h2' : i < 1 := by simpa using h2
      exact absurd h2' (by omega)
  have happ := complete_matrix_spec [[true, false]] 2 [0] (by decide) rfl
    (by unfold UniformWidth; decide) hst rfl
  exact ⟨hst, happ.1, happ.2.2.2.2.2⟩

/-- Witness for C8 at a concrete matrix. -/
theorem rref_idempotent_witness :
    UniformWidth 2 [[true, true], [true, false], [false, true]] ∧
      convert_to_reduced_row_echelon_form (convert_to_reduced_row_echelon_form
          [[true, true], [true, false], [false, true]]) =
        convert_to_reduced_row_echelon_form
          [[true, true], [true, false], [false, true]] :=
  ⟨by unfold UniformWidth; decide,
    rref_idempotent [[true, true], [true, false], [false, true]] 2
      (by unfold UniformWidth; decide)⟩

/-! ## Simon secret-recovery driver (`Cirq/CirqOracles/Simon/simon_tests.py`) -/

/-- The measurement-collection loop of `run_test` from `simon_tests.py`:
`budget` is the remaining part of `range(0, input_size + extra_rounds)`,
`i` indexes the next quantum measurement in the stream `ms`, and
`valid_inputs` is the accumulated matrix.  Returns (final matrix, number of
quantum invocations made, `found_enough_strings`).  The row-count test is
over ℤ because Python's `input_size - 1` is `-1` for `input_size = 0`. -/
def simon_collect (input_size : ℕ) (ms : ℕ → List Bool) :
    ℕ → ℕ → List (List Bool) → List (List Bool) × ℕ × Bool
  | 0, _, valid_inputs => (valid_inputs, 0, false)
  | budget + 1, i, valid_inputs =>
    let input_string := ms i
    let step := check_linear_independence input_string valid_inputs
    if (step.1.length : ℤ) = (input_size : ℤ) - 1 then (step.1, 1, true)
    else
      let rest := simon_collect input_size ms budget (i + 1) step.1
      (rest.1, rest.2.1 + 1, rest.2.2)

/-- `run_test` from `simon_tests.py`, with the quantum measurements supplied
as the stream `ms`, the function under test as `f` (evaluated classically by
`run_function_in_classical_mode`, an external collaborator), and
`extra_rounds` the integer the Python computes from the desired success
chance as `ceil(log2(1/(1-chance)))` (a float computation, supplied here as
a parameter).  `none` models the `InsufficientData` test failure. -/
def run_test (input_size extra_rounds : ℕ) (ms : ℕ → List Bool)
    (f : List Bool → List Bool) : Option (List Bool) :=
  let collected := simon_collect input_size ms (input_size + extra_rounds) 0 []
  if collected.2.2 = false then none
  else
    let valid_inputs := collected.1
    let right_hand_side := (complete_matrix valid_inputs).2
    let secret_string := solve_matrix (complete_matrix valid_inputs).1 right_hand_side
    let zeros := List.replicate input_size false
    if f zeros = f secret_string then some secret_string else some zeros

/-- C6: the Simon driver invokes the quantum measurement step at most
`N + extra_rounds` times; it stops collecting as soon as the matrix reaches
`N - 1` (independent) rows — the found flag is set exactly when the final
matrix has `N - 1` rows, and no smaller budget would already have found
enough; when collection ends without the flag the whole budget was consumed;
and the driver fails (`InsufficientData`) exactly when the flag is not
set. -/
theorem run_test_budget_spec :
    (∀ (N : ℕ) (ms : ℕ → List Bool) (budget i : ℕ) (acc : List (List Bool)),
      (simon_collect N ms budget i acc).2.1 ≤ budget) ∧
    (∀ (N : ℕ) (ms : ℕ → List Bool) (budget i : ℕ) (acc : List (List Bool)),
      ((acc.length : ℤ) ≠ (N : ℤ) - 1 ∨ 1 ≤ budget) →
      ((simon_collect N ms budget i acc).2.2 = true ↔
        ((simon_collect N ms budget i acc).1.length : ℤ) = (N : ℤ) - 1)) ∧
    (∀ (N : ℕ) (ms : ℕ → List Bool) (budget i : ℕ) (acc : List (List Bool)) (b : ℕ),
      b < (simon_collect N ms budget i acc).2.1 →
      (simon_collect N ms b i acc).2.2 = false) ∧
    (∀ (N : ℕ) (ms : ℕ → List Bool) (budget i : ℕ) (acc : List (List Bool)),
      (simon_collect N ms budget i acc).2.2 = false →
      (simon_collect N ms budget i acc).2.1 = budget) ∧
    (∀ (N extra : ℕ) (ms : ℕ → List Bool) (f : List Bool → List Bool),
      (run_test N extra ms f = none ↔
        (simon_collect N ms (N + extra) 0 []).2.2 = false)) := by
  have hcalls : ∀ (N : ℕ) (ms : ℕ → List Bool) (budget i : ℕ)
      (acc : List (List Bool)), (simon_collect N ms budget i acc).2.1 ≤ budget := by
    intro N ms budget
    induction budget with
    | zero => intro i acc; exact le_rfl
    | succ budget ih =>
      intro i acc
      rw [simon_collect]
      by_cases hfound : (((check_linear_independence (ms i) acc).1.length : ℤ)
          = (N : ℤ) - 1)
      · rw [if_pos hfound]
        show (1 : ℕ) ≤ budget + 1
        omega
      · rw [if_neg hfound]
        have := ih (i + 1) (check_linear_independence (ms i) acc).1
        show (simon_collect N ms budget (i + 1)
          (check_linear_independence (ms i) acc).1).2.1 + 1 ≤ budget + 1
        omega
  refine ⟨hcalls, ?_, ?_, ?_, ?_⟩
  · intro N ms budget
    induction budget with
    | zero =>
      intro i acc hpre
      rcases hpre with hne | hb
      · exact ⟨fun h => by simp [simon_collect] at h, fun h => absurd h hne⟩
      · omega
    | succ budget ih =>
      intro i acc _
      rw [simon_collect]
      by_cases hfound : (((check_linear_independence (ms i) acc).1.length : ℤ)
          = (N : ℤ) - 1)
      · rw [if_pos hfound]
        exact ⟨fun _ => hfound, fun _ => rfl⟩
      · rw [if_neg hfound]
        have := ih (i + 1) (check_linear_independence (ms i) acc).1 (Or.inl hfound)
        simpa using this
  · intro N ms budget
    induction budget with
    | zero =>
      intro i acc b hb
      simp [simon_collect] at hb
    | succ budget ih =>
      intro i acc b hb
      rw [simon_collect] at hb
      by_cases hfound : (((check_linear_independence (ms i) acc).1.length : ℤ)
          = (N : ℤ) - 1)
      · rw [if_pos hfound] at hb
        simp at hb
        have hb0 : b = 0 := by omega
        rw [hb0]
        rfl
      · rw [if_neg hfound] at hb
        simp at hb
        match b with
        | 0 => rfl
        | b' + 1 =>
          rw [simon_collect, if_neg hfound]
          have := ih (i + 1) (check_linear_independence (ms i) acc).1 b' (by omega)
          simpa using this
  · intro N ms budget
    induction budget with
    | zero => intro i acc _; rfl
    | succ budget ih =>
      intro i acc hnf
      rw [simon_collect] at hnf ⊢
      by_cases hfound : (((check_linear_independence (ms i) acc).1.length : ℤ)
          = (N : ℤ) - 1)
      · rw [if_pos hfound] at hnf
        simp at hnf
      · rw [if_neg hfound] at hnf ⊢
        simp at hnf ⊢
        exact ih (i + 1) (check_linear_independence (ms i) acc).1 hnf
  · intro N extra ms f
    unfold run_test
    by_cases hfail : (simon_collect N ms (N + extra) 0 []).2.2 = false
    · rw [if_pos hfail]
      exact ⟨fun _ => hfail, fun _ => rfl⟩
    · rw [if_neg hfail]
      constructor
      · intro h
        by_cases hsame : f (List.replicate N false) =
            f (solve_matrix (complete_matrix (simon_collect N ms (N + extra) 0 []).1).1
              (complete_matrix (simon_collect N ms (N + extra) 0 []).1).2)
        · rw [if_pos hsame] at h
          simp at h
        · rw [if_neg hsame] at h
          simp at h
      · intro h
        exact absurd h hfail

/-- Witness for C6 on `N = 2`, `extra_rounds = 0`, constant measurement
stream `[1, 0]`: the first measurement already gives the required single
independent row, so exactly one quantum call is made and the driver does
not fail. -/
theorem run_test_budget_spec_witness :
    ((simon_collect 2 (fun _ => [true, false]) 2 0 []).2.1 ≤ 2) ∧
      (((simon_collect 2 (fun _ => [true, false]) 2 0 []).2.2 = true ↔
        ((simon_collect 2 (fun _ => [true, false]) 2 0 []).1.length : ℤ) =
          (2 : ℤ) - 1)) ∧
      ((simon_collect 2 (fun _ => [true, false]) 0 0 []).2.2 = false) ∧
      (run_test 2 0 (fun _ => [true, false]) (fun x => x) = none ↔
        (simon_collect 2 (fun _ => [true, false]) 2 0 []).2.2 = false) :=
  ⟨run_test_budget_spec.1 2 (fun _ => [true, false]) 2 0 [],
    run_test_budget_spec.2.1 2 (fun _ => [true, false]) 2 0 [] (by decide),
    run_test_budget_spec.2.2.1 2 (fun _ => [true, false]) 2 0 [] 0 (by decide),
    run_test_budget_spec.2.2.2.2 2 0 (fun _ => [true, false]) (fun x => x)⟩

end QSFE
